import Mathlib

/-!
# go-import-redirector: a shallow embedding of `main.go`

The program is one Go file: `New` builds a `Handler` from six configuration
strings and `Handler.ServeHTTP` answers one request.  Both lean on the Go
standard library (`strings`, `path`, `net/url`, `net/textproto`, `net/http`,
`text/template`); the library functions they call are embedded here as well,
following the Go 1.22 sources, each under the name it has in Go.

Conventions of the embedding

* A Go `string` is a sequence of bytes.  It is represented by `Str`, a list of
  characters in which every character stands for the byte with the same code
  (`'a'` is `0x61`, `Char.ofNat 0xe4` is the byte `0xe4`).
* A Go `int` index that may be `-1` is an `Int`.
* A nilable pointer (`*url.URL`, `*url.Userinfo`) is an `Option`.
* A pair `(value, error)` is an `Except`.
* Loops whose trip count is bounded by the length of their input run on a
  fuel argument that is set to that bound.
-/

set_option linter.dupNamespace false

namespace GoImportRedirector

/-- A Go string: its bytes, one character per byte. -/
abbrev Str := List Char

/-! ## Package `strings` -/

namespace strings

/-- Go `strings.HasPrefix`. -/
def HasPrefix (s pre : Str) : Bool := pre.isPrefixOf s

/-- Go `strings.HasSuffix`. -/
def HasSuffix (s suf : Str) : Bool := suf.isSuffixOf s

/-- Go `strings.TrimPrefix`. -/
def TrimPrefix (s pre : Str) : Str :=
  if HasPrefix s pre then s.drop pre.length else s

/-- Go `strings.TrimSuffix`. -/
def TrimSuffix (s suf : Str) : Str :=
  if HasSuffix s suf then s.take (s.length - suf.length) else s

/-- Go `strings.Index`: the index of the first instance of `sep` in `s`, or `-1`. -/
def Index : Str → Str → Int
  | [], sep => if sep.isEmpty then 0 else -1
  | c :: s, sep =>
    if sep.isPrefixOf (c :: s) then 0
    else
      let i := Index s sep
      if i < 0 then -1 else i + 1

/-- Go `strings.IndexByte`; `strings.IndexRune` agrees with it for a rune below `0x80`. -/
def IndexByte : Str → Char → Int
  | [], _ => -1
  | c :: s, b =>
    if c = b then 0
    else
      let i := IndexByte s b
      if i < 0 then -1 else i + 1

/-- Go `strings.IndexRune`, for the ASCII runes it is called with here. -/
def IndexRune (s : Str) (r : Char) : Int := IndexByte s r

/-- Go `strings.LastIndexByte` (and `bytealg.LastIndexByteString`). -/
def LastIndexByte : Str → Char → Int
  | [], _ => -1
  | c :: s, b =>
    let i := LastIndexByte s b
    if i < 0 then (if c = b then 0 else -1) else i + 1

/-- Go `strings.Contains`. -/
def Contains (s sub : Str) : Bool := decide (0 ≤ Index s sub)

/-- Go `strings.Count`, for a separator of one byte. -/
def CountByte (s : Str) (b : Char) : Nat := s.count b

/-- Go `strings.Cut`, for a separator of one byte: the text before the first
separator, the text after it, and whether it was found. -/
def Cut : Str → Char → Str × Str × Bool
  | [], _ => ([], [], false)
  | c :: s, b =>
    if c = b then ([], s, true)
    else
      let r := Cut s b
      (c :: r.1, r.2.1, r.2.2)

/-- Lower-case form of one ASCII byte. -/
def lowerByte (c : Char) : Char :=
  if 'A'.toNat ≤ c.toNat ∧ c.toNat ≤ 'Z'.toNat then Char.ofNat (c.toNat + 32) else c

/-- Go `strings.ToLower` on ASCII text (it is applied to URL schemes only,
which hold ASCII letters, digits, `+`, `-` and `.`). -/
def ToLower (s : Str) : Str := s.map lowerByte

end strings

/-! ## Package `path` -/

namespace path

/-- The inner loop of the `..` case of `Clean`: `for out.w > dotdot &&
out.index(out.w) != '/' { out.w-- }`, reading the buffer `o` as it was before the
truncation. -/
def backtrack (o : Str) (dotdot : Nat) : Nat → Nat
  | 0 => 0
  | w + 1 =>
    if dotdot < w + 1 ∧ o.get? (w + 1) ≠ some '/' then backtrack o dotdot w else w + 1

/-- The main loop of Go `path.Clean`.  `rest` is `path[r:]`, `out` is the written
part of the buffer (`out.w = out.length`), `dotdot` is the index where `..` must
stop.  Every turn consumes at least one byte of `rest`, so `rest.length` turns of
fuel are enough. -/
def cleanLoop (rooted : Bool) : Nat → Str → Str → Nat → Str
  | 0, _, out, _ => out
  | fuel + 1, rest, out, dotdot =>
    match rest with
    | [] => out
    | c :: t =>
      if c = '/' then
        -- empty path element
        cleanLoop rooted fuel t out dotdot
      else if c = '.' ∧ (t = [] ∨ t.head? = some '/') then
        -- . element
        cleanLoop rooted fuel t out dotdot
      else if c = '.' ∧ t.head? = some '.' ∧ (t.tail = [] ∨ t.tail.head? = some '/') then
        -- .. element: remove to last /
        if dotdot < out.length then
          -- can backtrack
          cleanLoop rooted fuel t.tail (out.take (backtrack out dotdot (out.length - 1))) dotdot
        else if !rooted then
          -- cannot backtrack, but not rooted, so append .. element
          let out1 := (if 0 < out.length then out ++ ['/'] else out) ++ ['.', '.']
          cleanLoop rooted fuel t.tail out1 out1.length
        else
          cleanLoop rooted fuel t.tail out dotdot
      else
        -- real path element: add slash if needed, then copy the element
        let out1 :=
          if (rooted && out.length != 1) || (!rooted && out.length != 0) then out ++ ['/']
          else out
        let elem := (c :: t).takeWhile (fun x => x ≠ '/')
        cleanLoop rooted fuel ((c :: t).dropWhile (fun x => x ≠ '/')) (out1 ++ elem) dotdot

/-- Go `path.Clean`. -/
def Clean (p : Str) : Str :=
  if p = [] then ".".toList
  else
    let rooted := p.head? = some '/'
    let out :=
      if rooted then cleanLoop true p.length p.tail ['/'] 1
      else cleanLoop false p.length p [] 0
    -- Turn empty string into "."
    if out.length = 0 then ".".toList else out

/-- Go `path.Split`: the text up to and including the final slash, and the text
after it. -/
def Split (p : Str) : Str × Str :=
  let i := strings.LastIndexByte p '/'
  (p.take (i + 1).toNat, p.drop (i + 1).toNat)

/-- The buffer that `path.Join` builds before cleaning: the non-empty leading
elements and everything after them, separated by slashes. -/
def joinBuf : Str → List Str → Str
  | buf, [] => buf
  | buf, e :: es =>
    if 0 < buf.length ∨ e ≠ [] then
      joinBuf ((if 0 < buf.length then buf ++ ['/'] else buf) ++ e) es
    else joinBuf buf es

/-- Go `path.Join`. -/
def Join (elem : List Str) : Str :=
  let size := (elem.map List.length).sum
  if size = 0 then [] else Clean (joinBuf [] elem)

end path

/-! ## Package `net/url` -/

namespace url

/-- Go `url.encoding`: the part of a URL a text is escaped for. -/
inductive encoding
  | encodePath
  | encodePathSegment
  | encodeHost
  | encodeZone
  | encodeUserPassword
  | encodeQueryComponent
  | encodeFragment
  deriving DecidableEq, Repr

open encoding

/-- The errors `url.Parse` wraps, by the place that raises them.  `EscapeError`
and `InvalidHostError` carry the offending text, `invalidPort` the text after the
host. -/
inductive ParseErr
  | invalidControlCharacter
  | missingProtocolScheme
  | firstPathSegmentColon
  | missingBracket
  | invalidPort (colonPort : Str)
  | invalidUserinfo
  | EscapeError (s : Str)
  | InvalidHostError (s : Str)
  deriving DecidableEq, Repr

/-- Go `url.Error`: the operation, the URL text it was applied to, the cause. -/
structure Error where
  Op : Str
  URL : Str
  Err : ParseErr
  deriving DecidableEq, Repr

/-- The message of the cause.  `quote` is `strconv.Quote`, used by the `%q` verb
and by `EscapeError.Error`; it is a parameter because its result depends on the
Unicode tables. -/
def ParseErr.Error (quote : Str → Str) : ParseErr → Str
  | .invalidControlCharacter => "net/url: invalid control character in URL".toList
  | .missingProtocolScheme => "missing protocol scheme".toList
  | .firstPathSegmentColon => "first path segment in URL cannot contain colon".toList
  | .missingBracket => "missing ']' in host".toList
  | .invalidPort cp => "invalid port ".toList ++ quote cp ++ " after host".toList
  | .invalidUserinfo => "net/url: invalid userinfo".toList
  | .EscapeError s => "invalid URL escape ".toList ++ quote s
  | .InvalidHostError s => "invalid character ".toList ++ quote s ++ " in host name".toList

/-- Go `(*url.Error).Error`: `fmt.Sprintf("%s %q: %s", e.Op, e.URL, e.Err)`. -/
def Error.Error (quote : Str → Str) (e : Error) : Str :=
  e.Op ++ " ".toList ++ quote e.URL ++ ": ".toList ++ e.Err.Error quote

/-- Go `url.Userinfo`. -/
structure Userinfo where
  username : Str
  password : Str
  passwordSet : Bool
  deriving DecidableEq, Repr

/-- Go `url.URL`. -/
structure URL where
  Scheme : Str := []
  Opaque : Str := []
  User : Option Userinfo := none
  Host : Str := []
  Path : Str := []
  RawPath : Str := []
  OmitHost : Bool := false
  ForceQuery : Bool := false
  RawQuery : Str := []
  Fragment : Str := []
  RawFragment : Str := []
  deriving DecidableEq, Repr

/-- Go `ishex`. -/
def ishex (c : Char) : Bool :=
  ('0'.toNat ≤ c.toNat && c.toNat ≤ '9'.toNat) ||
  ('a'.toNat ≤ c.toNat && c.toNat ≤ 'f'.toNat) ||
  ('A'.toNat ≤ c.toNat && c.toNat ≤ 'F'.toNat)

/-- Go `unhex`. -/
def unhex (c : Char) : Nat :=
  if '0'.toNat ≤ c.toNat ∧ c.toNat ≤ '9'.toNat then c.toNat - '0'.toNat
  else if 'a'.toNat ≤ c.toNat ∧ c.toNat ≤ 'f'.toNat then c.toNat - 'a'.toNat + 10
  else if 'A'.toNat ≤ c.toNat ∧ c.toNat ≤ 'F'.toNat then c.toNat - 'A'.toNat + 10
  else 0

/-- ASCII letter or digit. -/
def isAlnum (c : Char) : Bool :=
  ('a'.toNat ≤ c.toNat && c.toNat ≤ 'z'.toNat) ||
  ('A'.toNat ≤ c.toNat && c.toNat ≤ 'Z'.toNat) ||
  ('0'.toNat ≤ c.toNat && c.toNat ≤ '9'.toNat)

/-- Go `shouldEscape`: whether byte `c` must be written `%XX` in the given part. -/
def shouldEscape (c : Char) (mode : encoding) : Bool :=
  -- §2.3 Unreserved characters (alphanum)
  if isAlnum c then false
  else if (mode = encodeHost ∨ mode = encodeZone) ∧ c ∈ "!$&'()*+,;=:[]<>\"".toList then false
  else if c ∈ "-_.~".toList then false
  else if c ∈ "$&+,/:;=?@".toList then
    match mode with
    | encodePath => c = '?'
    | encodePathSegment => c = '/' || c = ';' || c = ',' || c = '?'
    | encodeUserPassword => c = '@' || c = '/' || c = '?' || c = ':'
    | encodeQueryComponent => true
    | encodeFragment => false
    | _ => true
  else if mode = encodeFragment ∧ c ∈ "!()*".toList then false
  else true

/-- The checking pass of Go `unescape`: the first malformed or forbidden byte, if
any.  (`hasPlus` and the count of `%` only decide whether the text is copied.) -/
def unescapeCheck (mode : encoding) : Nat → Str → Option ParseErr
  | 0, _ => none
  | _ + 1, [] => none
  | fuel + 1, c :: s =>
    if c = '%' then
      match s with
      | a :: b :: t =>
        if !ishex a || !ishex b then some (.EscapeError (c :: a :: b :: []))
        else if mode = encodeHost ∧ unhex a < 8 ∧ [c, a, b] ≠ "%25".toList then
          some (.EscapeError [c, a, b])
        else if mode = encodeZone ∧ [c, a, b] ≠ "%25".toList ∧
            Char.ofNat (unhex a * 16 + unhex b) ≠ ' ' ∧
            shouldEscape (Char.ofNat (unhex a * 16 + unhex b)) encodeHost then
          some (.EscapeError [c, a, b])
        else unescapeCheck mode fuel t
      | _ => some (.EscapeError ((c :: s).take 3))
    else if c = '+' then unescapeCheck mode fuel s
    else if (mode = encodeHost ∨ mode = encodeZone) ∧ c.toNat < 0x80 ∧ shouldEscape c encodeHost then
      some (.InvalidHostError [c])
    else unescapeCheck mode fuel s

/-- The copying pass of Go `unescape`, run on a text that passed the check. -/
def unescapeCopy (mode : encoding) : Nat → Str → Str
  | 0, _ => []
  | _ + 1, [] => []
  | fuel + 1, c :: s =>
    if c = '%' then
      match s with
      | a :: b :: t => Char.ofNat (unhex a * 16 + unhex b) :: unescapeCopy mode fuel t
      | _ => []
    else if c = '+' then
      (if mode = encodeQueryComponent then ' ' else '+') :: unescapeCopy mode fuel s
    else c :: unescapeCopy mode fuel s

/-- Go `unescape`. -/
def unescape (s : Str) (mode : encoding) : Except ParseErr Str :=
  match unescapeCheck mode s.length s with
  | some e => .error e
  | none => .ok (unescapeCopy mode s.length s)

/-- The sixteen digits of Go `upperhex`. -/
def upperhex (n : Nat) : Char := ("0123456789ABCDEF".toList).getD (n % 16) '0'

/-- Go `escape`. -/
def escape (s : Str) (mode : encoding) : Str :=
  s.flatMap fun c =>
    if shouldEscape c mode then
      if c = ' ' ∧ mode = encodeQueryComponent then ['+']
      else ['%', upperhex (c.toNat / 16), upperhex (c.toNat % 16)]
    else [c]

/-- Go `QueryUnescape`. -/
def QueryUnescape (s : Str) : Except ParseErr Str := unescape s encodeQueryComponent

/-- Go `validEncoded`. -/
def validEncoded (s : Str) (mode : encoding) : Bool :=
  s.all fun c =>
    if c ∈ "!$&'()*+,;=:@".toList then true
    else if c ∈ "[]".toList then true
    else if c = '%' then true
    else !shouldEscape c mode

/-- Go `stringContainsCTLByte`. -/
def stringContainsCTLByte (s : Str) : Bool :=
  s.any fun b => decide (b.toNat < ' '.toNat) || decide (b.toNat = 0x7f)

/-- Go `getScheme`: `(scheme, rest)`, or the error of a text that starts with a
colon. -/
def getSchemeLoop (rawURL : Str) : Nat → Str → Except ParseErr (Str × Str)
  | _, [] => .ok ([], rawURL)
  | i, c :: s =>
    if ('a'.toNat ≤ c.toNat ∧ c.toNat ≤ 'z'.toNat) ∨ ('A'.toNat ≤ c.toNat ∧ c.toNat ≤ 'Z'.toNat) then
      getSchemeLoop rawURL (i + 1) s
    else if ('0'.toNat ≤ c.toNat ∧ c.toNat ≤ '9'.toNat) ∨ c = '+' ∨ c = '-' ∨ c = '.' then
      if i = 0 then .ok ([], rawURL) else getSchemeLoop rawURL (i + 1) s
    else if c = ':' then
      if i = 0 then .error .missingProtocolScheme
      else .ok (rawURL.take i, rawURL.drop (i + 1))
    else
      -- an invalid character, so there is no valid scheme
      .ok ([], rawURL)

/-- Go `getScheme`. -/
def getScheme (rawURL : Str) : Except ParseErr (Str × Str) := getSchemeLoop rawURL 0 rawURL

/-- Go `validOptionalPort`: empty, or a colon followed by digits only. -/
def validOptionalPort (port : Str) : Bool :=
  match port with
  | [] => true
  | c :: ds =>
    if c ≠ ':' then false
    else ds.all fun b => decide ('0'.toNat ≤ b.toNat) && decide (b.toNat ≤ '9'.toNat)

/-- Go `validUserinfo`. -/
def validUserinfo (s : Str) : Bool :=
  s.all fun r => isAlnum r || decide (r ∈ "-._:~!$&'()*+,;=%@".toList)

/-- Go `parseHost`. -/
def parseHost (host : Str) : Except ParseErr Str :=
  if strings.HasPrefix host ['['] then
    -- an IP-literal, such as "[fe80::1]", "[fe80::1%25en0]", "[fe80::1]:80"
    let i := strings.LastIndexByte host ']'
    if i < 0 then .error .missingBracket
    else
      let colonPort := host.drop (i + 1).toNat
      if !validOptionalPort colonPort then .error (.invalidPort colonPort)
      else
        let zone := strings.Index (host.take i.toNat) "%25".toList
        if 0 ≤ zone then
          match unescape (host.take zone.toNat) encodeHost with
          | .error e => .error e
          | .ok host1 =>
            match unescape ((host.take i.toNat).drop zone.toNat) encodeZone with
            | .error e => .error e
            | .ok host2 =>
              match unescape (host.drop i.toNat) encodeHost with
              | .error e => .error e
              | .ok host3 => .ok (host1 ++ host2 ++ host3)
        else unescape host encodeHost
  else
    let i := strings.LastIndexByte host ':'
    if i ≠ -1 ∧ !validOptionalPort (host.drop i.toNat) then
      .error (.invalidPort (host.drop i.toNat))
    else unescape host encodeHost

/-- Go `parseAuthority`: the user information and the host of `user@host`. -/
def parseAuthority (authority : Str) : Except ParseErr (Option Userinfo × Str) :=
  let i := strings.LastIndexByte authority '@'
  match (if i < 0 then parseHost authority else parseHost (authority.drop (i + 1).toNat)) with
  | .error e => .error e
  | .ok host =>
    if i < 0 then .ok (none, host)
    else
      let userinfo := authority.take i.toNat
      if !validUserinfo userinfo then .error .invalidUserinfo
      else if !strings.Contains userinfo [':'] then
        match unescape userinfo encodeUserPassword with
        | .error e => .error e
        | .ok name => .ok (some ⟨name, [], false⟩, host)
      else
        let c := strings.Cut userinfo ':'
        match unescape c.1 encodeUserPassword with
        | .error e => .error e
        | .ok username =>
          match unescape c.2.1 encodeUserPassword with
          | .error e => .error e
          | .ok password => .ok (some ⟨username, password, true⟩, host)

/-- Go `(*URL).setPath`: sets `Path` to the decoded text and `RawPath` to the
given text when it is not the default encoding of `Path`. -/
def URL.setPath (u : URL) (p : Str) : Except ParseErr URL :=
  match unescape p encodePath with
  | .error e => .error e
  | .ok path =>
    .ok { u with Path := path, RawPath := if p = escape path encodePath then [] else p }

/-- The test `p, err := unescape(raw, mode); err == nil && p == want`. -/
def unescapesTo (raw : Str) (mode : encoding) (want : Str) : Bool :=
  match unescape raw mode with
  | .ok p => decide (p = want)
  | .error _ => false

/-- Go `(*URL).EscapedPath`. -/
def URL.EscapedPath (u : URL) : Str :=
  if u.RawPath ≠ [] ∧ validEncoded u.RawPath encodePath ∧
      unescapesTo u.RawPath encodePath u.Path then u.RawPath
  else if u.Path = "*".toList then "*".toList
  else escape u.Path encodePath

/-- Go `(*URL).setFragment`. -/
def URL.setFragment (u : URL) (f : Str) : Except ParseErr URL :=
  match unescape f encodeFragment with
  | .error e => .error e
  | .ok frag =>
    .ok { u with Fragment := frag, RawFragment := if f = escape frag encodeFragment then [] else f }

/-- Go `(*URL).EscapedFragment`. -/
def URL.EscapedFragment (u : URL) : Str :=
  if u.RawFragment ≠ [] ∧ validEncoded u.RawFragment encodeFragment ∧
      unescapesTo u.RawFragment encodeFragment u.Fragment then u.RawFragment
  else escape u.Fragment encodeFragment

/-- Go `url.parse` with `viaRequest = false`, the only way `url.Parse` calls it. -/
def parse (rawURL : Str) : Except ParseErr URL :=
  if stringContainsCTLByte rawURL then .error .invalidControlCharacter
  else if rawURL = "*".toList then .ok { Path := "*".toList }
  else
    -- Split off possible leading "http:", "mailto:", etc.
    match getScheme rawURL with
    | .error e => .error e
    | .ok (scheme0, rest0) =>
      let scheme := strings.ToLower scheme0
      let forceQuery := strings.HasSuffix rest0 ['?'] && strings.CountByte rest0 '?' == 1
      let rest := if forceQuery then rest0.take (rest0.length - 1) else (strings.Cut rest0 '?').1
      let rawQuery := if forceQuery then [] else (strings.Cut rest0 '?').2.1
      let u : URL := { Scheme := scheme, ForceQuery := forceQuery, RawQuery := rawQuery }
      if !strings.HasPrefix rest ['/'] ∧ scheme ≠ [] then
        -- rootless paths are opaque
        .ok { u with Opaque := rest }
      else if !strings.HasPrefix rest ['/'] ∧ strings.Contains (strings.Cut rest '/').1 [':'] then
        -- first path segment has colon: not allowed in a relative URL
        .error .firstPathSegmentColon
      else if (scheme ≠ [] ∨ !strings.HasPrefix rest "///".toList) ∧
          strings.HasPrefix rest "//".toList then
        let auth0 := rest.drop 2
        let i := strings.IndexByte auth0 '/'
        let authority := if 0 ≤ i then auth0.take i.toNat else auth0
        let rest1 := if 0 ≤ i then auth0.drop i.toNat else []
        match parseAuthority authority with
        | .error e => .error e
        | .ok (user, host) => URL.setPath { u with User := user, Host := host } rest1
      else if scheme ≠ [] ∧ strings.HasPrefix rest ['/'] then
        -- OmitHost is set when rawURL has an empty host (authority)
        URL.setPath { u with OmitHost := true } rest
      else URL.setPath u rest

/-- Go `url.Parse`: cuts off the fragment, parses the rest, then sets the
fragment. -/
def Parse (rawURL : Str) : Except Error URL :=
  let c := strings.Cut rawURL '#'
  match parse c.1 with
  | .error e => .error ⟨"parse".toList, c.1, e⟩
  | .ok u =>
    if c.2.1 = [] then .ok u
    else
      match u.setFragment c.2.1 with
      | .error e => .error ⟨"parse".toList, rawURL, e⟩
      | .ok u1 => .ok u1

/-- Go `(*Userinfo).String`. -/
def Userinfo.String (u : Userinfo) : Str :=
  escape u.username encodeUserPassword ++
    (if u.passwordSet then [':'] ++ escape u.password encodeUserPassword else [])

/-- Go `(*URL).String`. -/
def URL.String (u : URL) : Str :=
  let buf0 : Str := if u.Scheme ≠ [] then u.Scheme ++ [':'] else []
  let buf1 : Str :=
    if u.Opaque ≠ [] then buf0 ++ u.Opaque
    else
      let buf2 : Str :=
        if u.Scheme ≠ [] ∨ u.Host ≠ [] ∨ u.User ≠ none then
          if u.OmitHost ∧ u.Host = [] ∧ u.User = none then
            -- omit empty host
            buf0
          else
            buf0 ++ (if u.Host ≠ [] ∨ u.Path ≠ [] ∨ u.User ≠ none then "//".toList else []) ++
              (match u.User with
               | some ui => ui.String ++ ['@']
               | none => []) ++
              (if u.Host ≠ [] then escape u.Host encodeHost else [])
        else buf0
      let path := u.EscapedPath
      let buf3 : Str :=
        if path ≠ [] ∧ path.head? ≠ some '/' ∧ u.Host ≠ [] then buf2 ++ ['/'] else buf2
      let buf4 : Str :=
        if buf3.length = 0 ∧ strings.Contains (strings.Cut path '/').1 [':'] then
          buf3 ++ "./".toList
        else buf3
      buf4 ++ path
  let buf5 : Str := if u.ForceQuery ∨ u.RawQuery ≠ [] then buf1 ++ ['?'] ++ u.RawQuery else buf1
  if u.Fragment ≠ [] then buf5 ++ ['#'] ++ u.EscapedFragment else buf5

/-- The loop of Go `resolvePath`: `for found { elem, remaining, found =
strings.Cut(remaining, "/") ... }`.  `dst` is the text written so far (it starts
as `"/"`); the result is the final `dst` and the last `elem`.  Every turn removes
a slash from `remaining`, so `remaining.length + 1` turns of fuel are enough. -/
def resolveLoop : Nat → Str → Str → Bool → Str × Str
  | 0, _, dst, _ => (dst, [])
  | fuel + 1, remaining, dst, first =>
    let c := strings.Cut remaining '/'
    let elem := c.1
    let st : Str × Bool :=
      if elem = ".".toList then
        -- drop
        (dst, false)
      else if elem = "..".toList then
        -- ignore the leading '/' we already wrote
        let str := dst.drop 1
        let index := strings.LastIndexByte str '/'
        if index = -1 then (['/'], true) else (['/'] ++ str.take index.toNat, first)
      else
        ((if !first then dst ++ ['/'] else dst) ++ elem, false)
    if c.2.2 then resolveLoop fuel c.2.1 st.1 st.2 else (st.1, elem)

/-- Go `resolvePath`: applies the special path segments of `ref` and of `base`. -/
def resolvePath (base ref : Str) : Str :=
  let full : Str :=
    if ref = [] then base
    else if ref.head? ≠ some '/' then
      base.take (strings.LastIndexByte base '/' + 1).toNat ++ ref
    else ref
  if full = [] then []
  else
    let r := resolveLoop (full.length + 1) full ['/'] true
    let dst := if r.2 = ".".toList ∨ r.2 = "..".toList then r.1 ++ ['/'] else r.1
    -- We wrote an initial '/', but we don't want two.
    if 1 < dst.length ∧ dst.get? 1 = some '/' then dst.drop 1 else dst

/-- The call `url.setPath(p)` whose error Go ignores: on an error the URL is left
as it is. -/
def URL.setPathIgnoringError (u : URL) (p : Str) : URL :=
  match u.setPath p with
  | .ok u1 => u1
  | .error _ => u

/-- Go `(*URL).ResolveReference`. -/
def URL.ResolveReference (u ref : URL) : URL :=
  let url : URL := if ref.Scheme = [] then { ref with Scheme := u.Scheme } else ref
  if ref.Scheme ≠ [] ∨ ref.Host ≠ [] ∨ ref.User ≠ none then
    -- the "absoluteURI" or "net_path" cases
    url.setPathIgnoringError (resolvePath ref.EscapedPath [])
  else if ref.Opaque ≠ [] then
    { url with User := none, Host := [], Path := [] }
  else
    let url1 : URL :=
      if ref.Path = [] ∧ !ref.ForceQuery ∧ ref.RawQuery = [] then
        if ref.Fragment = [] then
          { url with RawQuery := u.RawQuery, Fragment := u.Fragment, RawFragment := u.RawFragment }
        else { url with RawQuery := u.RawQuery }
      else url
    if ref.Path = [] ∧ u.Opaque ≠ [] then
      { url1 with Opaque := u.Opaque, User := none, Host := [], Path := [] }
    else
      -- the "abs_path" or "rel_path" cases
      URL.setPathIgnoringError { url1 with Host := u.Host, User := u.User }
        (resolvePath u.EscapedPath ref.EscapedPath)

/-- Go `(*URL).Parse`: parses `ref` and resolves it against `u`. -/
def URL.Parse (u : URL) (ref : Str) : Except Error URL :=
  match url.Parse ref with
  | .error e => .error e
  | .ok refURL => .ok (u.ResolveReference refURL)

/-- Go `url.Values`, a `map[string][]string`, as an association list with one
entry per key. -/
abbrev Values := List (Str × List Str)

/-- The map read `m[key]`: the value and whether the key is present. -/
def Values.get (m : Values) (key : Str) : Option (List Str) :=
  match m with
  | [] => none
  | (k, v) :: rest => if k = key then some v else Values.get rest key

/-- The map update `m[key] = append(m[key], value)`. -/
def Values.add (m : Values) (key value : Str) : Values :=
  match m with
  | [] => [(key, [value])]
  | (k, v) :: rest => if k = key then (k, v ++ [value]) :: rest else (k, v) :: Values.add rest key value

/-- The loop of Go `parseQuery` (its error result, which `Query` drops, is left
out): settings with a semicolon, an empty setting, and settings whose key or
value does not unescape are skipped. -/
def parseQuery : Nat → Values → Str → Values
  | 0, m, _ => m
  | fuel + 1, m, query =>
    if query = [] then m
    else
      let c := strings.Cut query '&'
      let key := c.1
      if strings.Contains key [';'] then parseQuery fuel m c.2.1
      else if key = [] then parseQuery fuel m c.2.1
      else
        let kv := strings.Cut key '='
        match QueryUnescape kv.1 with
        | .error _ => parseQuery fuel m c.2.1
        | .ok key1 =>
          match QueryUnescape kv.2.1 with
          | .error _ => parseQuery fuel m c.2.1
          | .ok value => parseQuery fuel (m.add key1 value) c.2.1

/-- Go `(*URL).Query`: `ParseQuery(u.RawQuery)` with the error dropped. -/
def URL.Query (u : URL) : Values := parseQuery u.RawQuery.length [] u.RawQuery

end url

/-! ## Package `net/textproto` and `net/http` -/

namespace textproto

/-- Go `validHeaderFieldByte`: the token characters of RFC 7230. -/
def validHeaderFieldByte (c : Char) : Bool :=
  url.isAlnum c || decide (c ∈ "!#$%&'*+-.^_|~".toList) || decide (c.toNat = 0x60)

/-- The canonicalizing loop of Go `canonicalMIMEHeaderKey`: upper case for the
first letter and for a letter after a dash, lower case elsewhere. -/
def canonLoop : Bool → Str → Str
  | _, [] => []
  | upper, c :: s =>
    let c1 : Char :=
      if upper ∧ 'a'.toNat ≤ c.toNat ∧ c.toNat ≤ 'z'.toNat then Char.ofNat (c.toNat - 32)
      else if !upper ∧ 'A'.toNat ≤ c.toNat ∧ c.toNat ≤ 'Z'.toNat then Char.ofNat (c.toNat + 32)
      else c
    c1 :: canonLoop (c1 = '-') s

/-- Go `canonicalMIMEHeaderKey`: a key with a byte that is no token character is
returned unchanged; the table of common headers returns the same text it is
asked for. -/
def canonicalMIMEHeaderKey (a : Str) : Str :=
  if a.all validHeaderFieldByte then canonLoop true a else a

/-- The quick check of Go `CanonicalMIMEHeaderKey`: scans for the first byte out
of place. -/
def quickCheck (whole : Str) : Bool → Str → Str
  | _, [] => whole
  | upper, c :: s =>
    if !validHeaderFieldByte c then whole
    else if upper ∧ 'a'.toNat ≤ c.toNat ∧ c.toNat ≤ 'z'.toNat then canonicalMIMEHeaderKey whole
    else if !upper ∧ 'A'.toNat ≤ c.toNat ∧ c.toNat ≤ 'Z'.toNat then canonicalMIMEHeaderKey whole
    else quickCheck whole (c = '-') s

/-- Go `textproto.CanonicalMIMEHeaderKey`. -/
def CanonicalMIMEHeaderKey (s : Str) : Str := quickCheck s true s

end textproto

namespace http

/-- Go `http.CanonicalHeaderKey`. -/
def CanonicalHeaderKey (s : Str) : Str := textproto.CanonicalMIMEHeaderKey s

/-- Go `http.Header`, a `map[string][]string`. -/
abbrev Header := List (Str × List Str)

/-- Go `Header.Get`: the first value of the canonical form of `key`, or `""`. -/
def Header.Get (h : Header) (key : Str) : Str :=
  match url.Values.get h (textproto.CanonicalMIMEHeaderKey key) with
  | some (v :: _) => v
  | _ => []

/-- The fields of Go `http.Request` that the handler reads. -/
structure Request where
  URL : url.URL
  Host : Str := []
  Header : Header := []
  deriving DecidableEq, Repr

/-- What a handler leaves in its `http.ResponseWriter`: the status code and the
bytes of the body. -/
structure Response where
  status : Nat
  body : Str
  deriving DecidableEq, Repr

/-- Go `http.StatusBadRequest`. -/
def StatusBadRequest : Nat := 400

/-- Go `http.StatusNotFound`. -/
def StatusNotFound : Nat := 404

/-- Go `http.StatusOK`, the status of a response whose body is written without
a call of `WriteHeader`. -/
def StatusOK : Nat := 200

/-- Go `http.Error`: the status code, and the message followed by a newline. -/
def Error (error : Str) (code : Nat) : Response := ⟨code, error ++ ['\n']⟩

/-- Go `http.NotFound`. -/
def NotFound : Response := Error "404 page not found".toList StatusNotFound

end http

/-! ## Package `text/template` -/

namespace template

/-- A parsed template without control structures: literal text and `{{.name}}`
actions. -/
inductive Node
  | Text (s : Str)
  | Field (name : Str)
  deriving DecidableEq, Repr

/-- A Go `map[string]string`, as an association list with one entry per key. -/
abbrev Map := List (Str × Str)

/-- The map update `m[key] = value`. -/
def Map.set (m : Map) (key value : Str) : Map :=
  match m with
  | [] => [(key, value)]
  | (k, v) :: rest => if k = key then (k, value) :: rest else (k, v) :: Map.set rest key value

/-- The text that `printableValue` of `text/template` gives for a value that is not
valid, such as the result of `MapIndex` for a key that is missing. -/
def noValue : Str := "<no value>".toList

/-- The text an action `{{.key}}` prints for a `map[string]string` under the default
option `missingkey=default`: the entry, or `<no value>` when the key is missing. -/
def Map.get (m : Map) (key : Str) : Str :=
  match m with
  | [] => noValue
  | (k, v) :: rest => if k = key then v else Map.get rest key

/-- Go `(*Template).Execute` on a `map[string]string`: the text that is written.
`text/template` does no escaping. -/
def Execute (t : List Node) (data : Map) : Str :=
  t.flatMap fun n =>
    match n with
    | .Text s => s
    | .Field name => data.get name

end template

/-! ## `main.go` -/

/-- Constant `pImport` of `main.go`. -/
def pImport : Str := "import".toList

/-- Constant `pVcs` of `main.go`. -/
def pVcs : Str := "vcs".toList

/-- Constant `pSources` of `main.go`. -/
def pSources : Str := "sources".toList

/-- Constant `pRedirect` of `main.go`. -/
def pRedirect : Str := "redirect".toList

/-- Constant `pRedirectDir` of `main.go`. -/
def pRedirectDir : Str := "redirectDir".toList

/-- Constant `pRedirectFile` of `main.go`. -/
def pRedirectFile : Str := "redirectFile".toList

/-- Constant `qGoGet` of `main.go`. -/
def qGoGet : Str := "go-get".toList

/-- The text of `tmpl` before the first action. -/
def tmplHead : Str :=
  ("<!DOCTYPE html>\n<html>\n<head>\n" ++
    "<meta http-equiv=\"Content-Type\" content=\"text/html; charset=utf-8\"/>\n" ++
    "<meta name=\"go-import\" content=\"").toList

/-- The text of `tmpl` between the `go-import` and the `go-source` contents. -/
def tmplSource : Str := "\">\n<meta name=\"go-source\" content=\"".toList

/-- The text of `tmpl` between the `go-source` content and the refresh target. -/
def tmplRefresh : Str := "\">\n<meta http-equiv=\"refresh\" content=\"0; url=".toList

/-- The text of `tmpl` between the refresh target and the link target. -/
def tmplLink : Str := "\">\n</head>\n<body>\nRedirecting to docs at <a href=\"".toList

/-- The text of `tmpl` after the last action. -/
def tmplTail : Str := "</a>...\n</body>\n</html>\n".toList

/-- The template `tmpl` of `main.go`, as `template.Parse` reads it: literal text
and the actions `{{.import}}`, `{{.vcs}}`, `{{.sources}}`, `{{.redirectDir}}`,
`{{.redirectFile}}`, `{{.redirect}}`. -/
def tmpl : List template.Node :=
  [ .Text tmplHead,
    .Field pImport, .Text " ".toList, .Field pVcs, .Text " ".toList, .Field pSources,
    .Text tmplSource,
    .Field pImport, .Text " ".toList, .Field pSources, .Field pRedirectDir, .Field pRedirectFile,
    .Text tmplRefresh,
    .Field pRedirect,
    .Text tmplLink,
    .Field pRedirect, .Text "\">".toList, .Field pRedirect,
    .Text tmplTail ]

/-- Type `Handler` of `main.go`.  The field `prefix_` is the Go field `prefix`
(a reserved word here); the zero value has nil pointers and empty strings. -/
structure Handler where
  prefix_ : Option url.URL := none
  vcs : Str := []
  redirect : Option url.URL := none
  redirectDirSuffix : Str := []
  redirectFileSuffix : Str := []
  forwardedHeader : Str := []
  deriving DecidableEq, Repr

/-- Function `New` of `main.go`: the pair `(h, err)` it returns. -/
def New (prefix_ vcs redirect redirectDir redirectFile forwardedHeader : Str) :
    Handler × Option url.Error :=
  match url.Parse prefix_ with
  | .error err => ({}, some err)
  | .ok pu =>
    match url.Parse redirect with
    | .error err => ({}, some err)
    | .ok ru =>
      let p : Handler := { prefix_ := some pu, redirect := some ru }
      let p : Handler :=
        if strings.HasPrefix ru.Scheme "http".toList then
          { p with redirectDirSuffix := redirectDir, redirectFileSuffix := redirectFile }
        else p
      let p : Handler :=
        if 0 < forwardedHeader.length then
          { p with forwardedHeader := http.CanonicalHeaderKey "forwardedHeader".toList }
        else p
      ({ p with vcs := vcs }, none)

/-- The path `p` of `ServeHTTP` (line 98): the escaped request path without one
trailing slash. -/
def trimmedPath (r : http.Request) : Str :=
  strings.TrimSuffix r.URL.EscapedPath "/".toList

/-- The condition of line 99: the query has `go-get` with exactly one value,
that value is `"1"`, and the trimmed path is not empty. -/
def trigger (r : http.Request) : Bool :=
  match r.URL.Query.get qGoGet with
  | some v => v.length == 1 && v.head? == some "1".toList && decide (0 < (trimmedPath r).length)
  | none => false

/-- Lines 102 to 111 of `ServeHTTP`: the host taken from the request when its
URL has none: the forwarded header when it has a value, else `r.Host`, cut
before its first colon when that colon is not at the start. -/
def Handler.requestHost (h : Handler) (r : http.Request) : Str :=
  let fwd := r.Header.Get h.forwardedHeader
  let host := if 0 < fwd.length then fwd else r.Host
  let sep := strings.IndexRune host ':'
  if 0 < sep then host.take sep.toNat else host

/-- Lines 100 to 115 of `ServeHTTP`: the value of `base` after the first `if`. -/
def Handler.derivedBase (h : Handler) (r : http.Request) : Str :=
  let base := (path.Split (trimmedPath r)).1
  if base.length = 0 ∨ base = "/".toList then
    if r.URL.Host.length = 0 then h.requestHost r else r.URL.Host
  else base

/-- Line 116 of `ServeHTTP`: `base = path.Join(base, project)`. -/
def Handler.projectPath (h : Handler) (r : http.Request) : Str :=
  path.Join [h.derivedBase r, (path.Split (trimmedPath r)).2]

/-- The entry `replacements[pImport]` of line 118. -/
def Handler.importPath (h : Handler) (r : http.Request) : Str :=
  strings.TrimPrefix (h.projectPath r) "/".toList

/-- Lines 134 to 139 of `ServeHTTP`: the map with the two suffix entries added
when their templates are not empty. -/
def Handler.addSuffixes (h : Handler) (baseRedirect : Str) (m : template.Map) : template.Map :=
  let m1 :=
    if 0 < h.redirectDirSuffix.length then
      m.set pRedirectDir (" ".toList ++ path.Join [baseRedirect, h.redirectDirSuffix])
    else m
  if 0 < h.redirectFileSuffix.length then
    m1.set pRedirectFile (" ".toList ++ path.Join [baseRedirect, h.redirectFileSuffix])
  else m1

/-- Method `Handler.ServeHTTP` of `main.go`: what it leaves in the response
writer, or `none` when it panics on a nil `prefix` or `redirect` before writing
anything.  `quote` is `strconv.Quote`, which formats the text of an error.  (The
assignment `r.Host = fwd` is kept in the local `host` of `requestHost`.) -/
def Handler.ServeHTTP (quote : Str → Str) (h : Handler) (r : http.Request) :
    Option http.Response :=
  if trigger r then
    let base := h.projectPath r
    let replacements : template.Map :=
      [(pImport, strings.TrimPrefix base "/".toList), (pVcs, h.vcs)]
    match h.prefix_ with
    | none => none
    | some pu =>
      match pu.Parse (path.Join [pu.Path, base]) with
      | .error err => some (http.Error (err.Error quote) http.StatusBadRequest)
      | .ok redirect =>
        let replacements := replacements.set pSources redirect.String
        match h.redirect with
        | none => none
        | some ru =>
          match ru.Parse (path.Join [ru.Path, base]) with
          | .error err => some (http.Error (err.Error quote) http.StatusBadRequest)
          | .ok redirect =>
            let baseRedirect := redirect.String
            let replacements := replacements.set pRedirect baseRedirect
            let replacements := h.addSuffixes baseRedirect replacements
            some ⟨http.StatusOK, template.Execute tmpl replacements⟩
  else some http.NotFound

/-! ## Reference definitions and concrete inputs -/

namespace strconv

/-- The two lower-case hexadecimal digits of a byte, as Go `lowerhex` gives them. -/
def lowerhex (n : Nat) : Char := ("0123456789abcdef".toList).getD (n % 16) '0'

/-- Go `strconv.Quote` on ASCII text: the text between double quotes, with a
backslash before `"` and `\`, the short escapes for the seven control characters
that have one, and `\x` with two digits for every other byte outside
`0x20 .. 0x7e`.  It stands for the parameter `quote` at the concrete requests
below, which are ASCII. -/
def quoteASCII (s : Str) : Str :=
  ['"'] ++ s.flatMap (fun c =>
    if c = '"' ∨ c = '\\' then ['\\', c]
    else if 0x20 ≤ c.toNat ∧ c.toNat ≤ 0x7e then [c]
    else if c.toNat = 7 then ['\\', 'a']
    else if c.toNat = 8 then ['\\', 'b']
    else if c.toNat = 12 then ['\\', 'f']
    else if c = '\n' then ['\\', 'n']
    else if c = '\r' then ['\\', 'r']
    else if c = '\t' then ['\\', 't']
    else if c.toNat = 11 then ['\\', 'v']
    else ['\\', 'x', lowerhex (c.toNat / 16), lowerhex (c.toNat % 16)]) ++ ['"']

end strconv

/-- The success document as the specification describes it (§6): the fixed HTML
page whose `go-import` meta content is `<import> <vcs> <sourceURL>`, whose
`go-source` meta content is `<import> <sourceURL><dirSuffix><fileSuffix>`, and
whose refresh tag and link point at `<docsURL>`. -/
def successDocument (imp vcs sourceURL dirSuffix fileSuffix docsURL : Str) : Str :=
  "<!DOCTYPE html>\n<html>\n<head>\n".toList ++
  "<meta http-equiv=\"Content-Type\" content=\"text/html; charset=utf-8\"/>\n".toList ++
  "<meta name=\"go-import\" content=\"".toList ++
    imp ++ " ".toList ++ vcs ++ " ".toList ++ sourceURL ++ "\">\n".toList ++
  "<meta name=\"go-source\" content=\"".toList ++
    imp ++ " ".toList ++ sourceURL ++ dirSuffix ++ fileSuffix ++ "\">\n".toList ++
  "<meta http-equiv=\"refresh\" content=\"0; url=".toList ++ docsURL ++ "\">\n".toList ++
  "</head>\n<body>\nRedirecting to docs at <a href=\"".toList ++ docsURL ++ "\">".toList ++
    docsURL ++ "</a>...\n</body>\n</html>\n".toList

/-- The text the page shows in the place of a suffix (lines 134 to 139 and the
actions `{{.redirectDir}}`, `{{.redirectFile}}` of `tmpl`): for an empty template the
map gets no entry and the action prints `<no value>`; else the entry is a space and
`path.Join(baseRedirect, template)`. -/
def renderedSuffix (baseRedirect suffixTemplate : Str) : Str :=
  if suffixTemplate = [] then template.noValue
  else " ".toList ++ path.Join [baseRedirect, suffixTemplate]

/-- A request for `path?go-get=1` with the given `Host` and headers, its URL
without a host. -/
def goGetRequest (path host : Str) (header : http.Header) : http.Request :=
  { URL := { Path := path, RawQuery := "go-get=1".toList }, Host := host, Header := header }

end GoImportRedirector
namespace GoImportRedirector

/-- Whether a response carries a `go-import` meta tag with exactly this content. -/
def hasGoImport (resp : Option http.Response) (content : Str) : Bool :=
  match resp with
  | some r =>
    decide (("<meta name=\"go-import\" content=\"".toList ++ content ++ "\">".toList) <:+: r.body)
  | none => false

/-- Whether a response carries a `go-source` meta tag whose content starts with
this text. -/
def goSourceStartsWith (resp : Option http.Response) (content : Str) : Bool :=
  match resp with
  | some r => decide (("<meta name=\"go-source\" content=\"".toList ++ content) <:+: r.body)
  | none => false

/-- Whether a response carries a `go-source` meta tag with exactly this content. -/
def hasGoSource (resp : Option http.Response) (content : Str) : Bool :=
  match resp with
  | some r =>
    decide (("<meta name=\"go-source\" content=\"".toList ++ content ++ "\">".toList) <:+: r.body)
  | none => false

/-- The default of flag `-p`, the source prefix. -/
def githubPrefix : Str := "https://github.com".toList

/-- The default of flag `-r`, the documentation prefix. -/
def pkgGoDevPrefix : Str := "https://pkg.go.dev".toList

/-- The default of flag `-t`. -/
def git : Str := "git".toList

/-- Lines 121 to 127 of `ServeHTTP`: the source URL of a request, when the handler
has a source prefix and the resolution succeeds. -/
def Handler.sourceURL (h : Handler) (r : http.Request) : Option url.URL :=
  match h.prefix_ with
  | none => none
  | some pu =>
    match pu.Parse (path.Join [pu.Path, h.projectPath r]) with
    | .ok u => some u
    | .error _ => none

/-- An unreserved byte of RFC 3986: a letter, a digit, `-`, `_`, `.` or `~`. -/
def isUnreserved (c : Char) : Bool := url.isAlnum c || decide (c ∈ "-_.~".toList)

/-- A plain path segment: not empty, made of unreserved bytes, and neither `.` nor
`..`. -/
def isPlainSegment (s : Str) : Bool :=
  !s.isEmpty && s.all isUnreserved && decide (s ≠ ".".toList) && decide (s ≠ "..".toList)

/-- The rooted path with the given segments: `/a/b` for `[a, b]`, the empty text for
no segment. -/
def rootedPath : List Str → Str
  | [] => []
  | s :: ss => '/' :: s ++ rootedPath ss

/-- Whether a text contains two slashes in a row. -/
def hasDoubleSlash : Str → Bool
  | a :: b :: t => (a == '/' && b == '/') || hasDoubleSlash (b :: t)
  | _ => false

end GoImportRedirector

/-! # Theorems -/

/-! ## Lemmas on the template and on the control flow of `ServeHTTP` -/

namespace GoImportRedirector

open template

/-- Executing `tmpl` writes its texts and the map entries of its actions in order. -/
theorem Execute_tmpl_fields (m : Map) :
    Execute tmpl m =
      tmplHead ++ (m.get pImport ++ (" ".toList ++ (m.get pVcs ++ (" ".toList ++ (m.get pSources ++
      (tmplSource ++ (m.get pImport ++ (" ".toList ++ (m.get pSources ++ (m.get pRedirectDir ++
      (m.get pRedirectFile ++ (tmplRefresh ++ (m.get pRedirect ++ (tmplLink ++ (m.get pRedirect ++
      ("\">".toList ++ (m.get pRedirect ++ (tmplTail ++ [])))))))))))))))))) := rfl

theorem tmplHead_eq :
    tmplHead = "<!DOCTYPE html>\n<html>\n<head>\n".toList ++
      "<meta http-equiv=\"Content-Type\" content=\"text/html; charset=utf-8\"/>\n".toList ++
      "<meta name=\"go-import\" content=\"".toList := by
  decide

theorem tmplSource_eq :
    tmplSource = "\">\n".toList ++ "<meta name=\"go-source\" content=\"".toList := by
  decide

theorem tmplRefresh_eq :
    tmplRefresh = "\">\n".toList ++ "<meta http-equiv=\"refresh\" content=\"0; url=".toList := by
  decide

theorem tmplLink_eq :
    tmplLink = "\">\n".toList ++ "</head>\n<body>\nRedirecting to docs at <a href=\"".toList := by
  decide

/-- The success document of the specification, cut at the texts of `tmpl`. -/
theorem successDocument_eq (imp vcs src dir file docs : Str) :
    successDocument imp vcs src dir file docs =
      tmplHead ++ (imp ++ (" ".toList ++ (vcs ++ (" ".toList ++ (src ++
      (tmplSource ++ (imp ++ (" ".toList ++ (src ++ (dir ++
      (file ++ (tmplRefresh ++ (docs ++ (tmplLink ++ (docs ++
      ("\">".toList ++ (docs ++ (tmplTail ++ [])))))))))))))))))) := by
  rw [tmplHead_eq, tmplSource_eq, tmplRefresh_eq, tmplLink_eq]
  simp only [successDocument, tmplTail, List.append_assoc, List.append_nil]

/-- The map that `ServeHTTP` fills renders to the success document. -/
theorem Execute_tmpl (imp vcs src docs : Str) (h : Handler) :
    Execute tmpl (h.addSuffixes docs
        (Map.set (Map.set [(pImport, imp), (pVcs, vcs)] pSources src) pRedirect docs)) =
      successDocument imp vcs src (renderedSuffix docs h.redirectDirSuffix)
        (renderedSuffix docs h.redirectFileSuffix) docs := by
  have e1 : Map.set (Map.set [(pImport, imp), (pVcs, vcs)] pSources src) pRedirect docs
      = [(pImport, imp), (pVcs, vcs), (pSources, src), (pRedirect, docs)] := rfl
  rw [e1, Execute_tmpl_fields, successDocument_eq]
  unfold Handler.addSuffixes renderedSuffix
  by_cases hd : h.redirectDirSuffix = [] <;> by_cases hf : h.redirectFileSuffix = [] <;>
    simp only [hd, hf, List.length_nil, lt_self_iff_false, if_false, if_true, List.length_pos,
      ne_eq, not_false_eq_true] <;> rfl

/-- The page for a map that has no suffix entry. -/
theorem Execute_tmpl_without_suffixes (imp vcs src docs : Str) :
    Execute tmpl [(pImport, imp), (pVcs, vcs), (pSources, src), (pRedirect, docs)] =
      successDocument imp vcs src (renderedSuffix docs []) (renderedSuffix docs []) docs :=
  Execute_tmpl imp vcs src docs {}

/-- A request whose `go-get` values are not exactly `["1"]` does not trigger. -/
theorem trigger_false_of_query (r : http.Request)
    (hq : r.URL.Query.get qGoGet ≠ some ["1".toList]) : trigger r = false := by
  unfold trigger
  cases hv : r.URL.Query.get qGoGet with
  | none => rfl
  | some v =>
    rw [hv] at hq
    match v, hq with
    | [], _ => rfl
    | [x], hq =>
      have hx : x ≠ "1".toList := fun e => hq (by rw [e])
      have hb : (([x] : List Str).head? == some "1".toList) = false :=
        beq_eq_false_iff_ne.mpr (fun e => hx (Option.some.inj e))
      simp only [hb, Bool.and_false, Bool.false_and]
    | _ :: _ :: _, _ => simp

/-- The trigger in terms of the query and the trimmed path. -/
theorem trigger_true_iff (r : http.Request) :
    trigger r = true ↔
      r.URL.Query.get qGoGet = some ["1".toList] ∧ trimmedPath r ≠ [] := by
  constructor
  · intro ht
    by_cases hq : r.URL.Query.get qGoGet = some ["1".toList]
    · refine ⟨hq, ?_⟩
      intro hp
      unfold trigger at ht
      simp [hq, hp] at ht
    · rw [trigger_false_of_query r hq] at ht
      exact absurd ht (by decide)
  · rintro ⟨hq, hp⟩
    unfold trigger
    simp [hq, List.length_pos, hp]

/-- The success path of `ServeHTTP`: a triggering request with both resolutions
succeeding gets the success document with status 200. -/
theorem ServeHTTP_success (quote : Str → Str) (h : Handler) (r : http.Request)
    (pu su ru du : url.URL) (ht : trigger r = true) (hp : h.prefix_ = some pu)
    (hs : pu.Parse (path.Join [pu.Path, h.projectPath r]) = .ok su)
    (hr : h.redirect = some ru)
    (hd : ru.Parse (path.Join [ru.Path, h.projectPath r]) = .ok du) :
    h.ServeHTTP quote r =
      some ⟨200, successDocument (h.importPath r) h.vcs su.String
        (renderedSuffix du.String h.redirectDirSuffix)
        (renderedSuffix du.String h.redirectFileSuffix) du.String⟩ := by
  unfold Handler.ServeHTTP
  simp only [ht, if_true, hp, hs, hr, hd, Execute_tmpl]
  rfl

/-- Every response with status 200 comes from the success path. -/
theorem ServeHTTP_status_ok (quote : Str → Str) (h : Handler) (r : http.Request)
    (resp : http.Response) (hresp : h.ServeHTTP quote r = some resp) (hst : resp.status = 200) :
    ∃ pu su ru du, trigger r = true ∧ h.prefix_ = some pu ∧
      pu.Parse (path.Join [pu.Path, h.projectPath r]) = .ok su ∧ h.redirect = some ru ∧
      ru.Parse (path.Join [ru.Path, h.projectPath r]) = .ok du := by
  by_cases ht : trigger r = true
  · cases hp : h.prefix_ with
    | none => simp [Handler.ServeHTTP, ht, hp] at hresp
    | some pu =>
      cases hs : pu.Parse (path.Join [pu.Path, h.projectPath r]) with
      | error e =>
        simp [Handler.ServeHTTP, ht, hp, hs, http.Error, http.StatusBadRequest] at hresp
        rw [← hresp] at hst
        simp at hst
      | ok su =>
        cases hr : h.redirect with
        | none => simp [Handler.ServeHTTP, ht, hp, hs, hr] at hresp
        | some ru =>
          cases hd : ru.Parse (path.Join [ru.Path, h.projectPath r]) with
          | error e =>
            simp [Handler.ServeHTTP, ht, hp, hs, hr, hd, http.Error, http.StatusBadRequest] at hresp
            rw [← hresp] at hst
            simp at hst
          | ok du => exact ⟨pu, su, ru, du, ht, rfl, hs, rfl, hd⟩
  · simp [Handler.ServeHTTP, ht, http.NotFound, http.Error, http.StatusNotFound] at hresp
    rw [← hresp] at hst
    simp at hst

/-- What `New` returns when both texts parse. -/
theorem New_ok (pre vcs redirect rd rf fh : Str) (pu ru : url.URL)
    (hp : url.Parse pre = .ok pu) (hr : url.Parse redirect = .ok ru) :
    New pre vcs redirect rd rf fh =
      ({ prefix_ := some pu, vcs := vcs, redirect := some ru,
         redirectDirSuffix := if strings.HasPrefix ru.Scheme "http".toList then rd else [],
         redirectFileSuffix := if strings.HasPrefix ru.Scheme "http".toList then rf else [],
         forwardedHeader :=
           if 0 < fh.length then http.CanonicalHeaderKey "forwardedHeader".toList else [] },
       none) := by
  unfold New
  simp only [hp, hr]
  split_ifs <;> rfl

/-- The error of `url.Parse` names the operation and the text that was parsed:
the whole text, or the text before `#` when that part is at fault. -/
theorem Parse_error_reports (s : Str) (e : url.Error) (h : url.Parse s = .error e) :
    e.Op = "parse".toList ∧ (e.URL = s ∨ e.URL = (strings.Cut s '#').1) := by
  unfold url.Parse at h
  cases hp : url.parse (strings.Cut s '#').1 with
  | error pe =>
    simp only [hp] at h
    cases h
    exact ⟨rfl, Or.inr rfl⟩
  | ok u =>
    simp only [hp] at h
    by_cases hf : (strings.Cut s '#').2.1 = []
    · simp [hf] at h
    · simp only [hf, if_false] at h
      cases hsf : u.setFragment (strings.Cut s '#').2.1 with
      | error fe =>
        simp only [hsf] at h
        cases h
        exact ⟨rfl, Or.inl rfl⟩
      | ok u1 => simp [hsf] at h

end GoImportRedirector

namespace GoImportRedirector

/-! ## Lemmas on single-segment paths and host names -/

theorem LastIndexByte_of_not_mem (s : Str) (b : Char) (h : b ∉ s) :
    strings.LastIndexByte s b = -1 := by
  induction s with
  | nil => rfl
  | cons c s ih =>
    have hc : c ≠ b := fun e => h (by rw [e]; exact List.mem_cons_self _ _)
    have hs : b ∉ s := fun m => h (List.mem_cons_of_mem _ m)
    simp only [strings.LastIndexByte, ih hs, hc, if_false]
    decide

theorem IndexByte_of_not_mem (s : Str) (b : Char) (h : b ∉ s) :
    strings.IndexByte s b = -1 := by
  induction s with
  | nil => rfl
  | cons c s ih =>
    have hc : c ≠ b := fun e => h (by rw [e]; exact List.mem_cons_self _ _)
    have hs : b ∉ s := fun m => h (List.mem_cons_of_mem _ m)
    simp only [strings.IndexByte, ih hs, hc, if_false]
    decide

theorem IndexByte_append_cons (s t : Str) (b : Char) (h : b ∉ s) :
    strings.IndexByte (s ++ b :: t) b = s.length := by
  induction s with
  | nil => simp [strings.IndexByte]
  | cons c s ih =>
    have hc : c ≠ b := fun e => h (by rw [e]; exact List.mem_cons_self _ _)
    have hs : b ∉ s := fun m => h (List.mem_cons_of_mem _ m)
    have hnn : ¬ ((s.length : Int) < 0) := by omega
    show strings.IndexByte (c :: (s ++ b :: t)) b = _
    simp only [strings.IndexByte, hc, if_false, ih hs, hnn, List.length_cons,
      Nat.cast_add, Nat.cast_one]

/-- Splitting `/name` gives the directory `/` and the file `name`. -/
theorem Split_single_segment (name : Str) (h : '/' ∉ name) :
    path.Split ('/' :: name) = (['/'], name) := by
  unfold path.Split
  have h0 : strings.LastIndexByte ('/' :: name) '/' = 0 := by
    simp only [strings.LastIndexByte, LastIndexByte_of_not_mem name '/' h]
    decide
  rw [h0]
  rfl

/-- A path `/name` with a non-empty `name` that has no slash has no trailing slash. -/
theorem TrimSuffix_single_segment (name : Str) (hne : name ≠ []) (h : '/' ∉ name) :
    strings.TrimSuffix ('/' :: name) "/".toList = '/' :: name := by
  unfold strings.TrimSuffix strings.HasSuffix
  have hns : ¬ ("/".toList <:+ '/' :: name) := by
    rintro ⟨t, ht⟩
    have hlast : ('/' :: name).getLast? = some '/' := by
      rw [← ht]
      simp
    cases name with
    | nil => exact hne rfl
    | cons d n =>
      rw [List.getLast?_cons_cons] at hlast
      exact h (List.mem_of_getLast?_eq_some hlast)
  have hb : List.isSuffixOf "/".toList ('/' :: name) = false := by
    rw [Bool.eq_false_iff]
    intro hc
    exact hns (List.isSuffixOf_iff_suffix.mp hc)
  rw [hb]
  rfl

end GoImportRedirector

namespace GoImportRedirector

/-! ## `path.Clean` on ordinary segments -/

/-- Copying stops at once on an empty rest or a rest that starts with a slash. -/
theorem takeWhile_not_slash_rest (rest : Str) (hrest : rest = [] ∨ rest.head? = some '/') :
    rest.takeWhile (fun x => x ≠ '/') = [] ∧ rest.dropWhile (fun x => x ≠ '/') = rest := by
  cases rest with
  | nil => exact ⟨rfl, rfl⟩
  | cons d t =>
    rcases hrest with h | h
    · cases h
    · have hd : d = '/' := by simpa using h
      subst hd
      exact ⟨rfl, rfl⟩

/-- One turn of the loop of `path.Clean` on an ordinary segment (not empty, no
slash, neither `.` nor `..`) that ends the path or is followed by a slash: the
segment is copied, after a slash when the buffer needs one. -/
theorem cleanLoop_plain_segment (rooted : Bool) (fuel : Nat) (seg rest out : Str) (dd : Nat)
    (hne : seg ≠ []) (hs : '/' ∉ seg) (hd1 : seg ≠ ".".toList) (hd2 : seg ≠ "..".toList)
    (hrest : rest = [] ∨ rest.head? = some '/') :
    path.cleanLoop rooted (fuel + 1) (seg ++ rest) out dd =
      path.cleanLoop rooted fuel rest
        ((if (rooted && out.length != 1) || (!rooted && out.length != 0) then out ++ ['/']
          else out) ++ seg) dd := by
  cases seg with
  | nil => exact absurd rfl hne
  | cons c t =>
    have hc : c ≠ '/' := fun e => hs (by rw [e]; exact List.mem_cons_self _ _)
    have ht : '/' ∉ t := fun m => hs (List.mem_cons_of_mem _ m)
    have hall : ∀ a ∈ c :: t, (fun x => decide (x ≠ '/')) a = true := by
      intro a ha
      have : a ≠ '/' := fun e => hs (e ▸ ha)
      simpa using this
    have hdot : ¬ (c = '.' ∧ (t ++ rest = [] ∨ (t ++ rest).head? = some '/')) := by
      rintro ⟨e, h | h⟩
      · have ht0 : t = [] := (List.append_eq_nil.mp h).1
        exact hd1 (by rw [e, ht0]; rfl)
      · cases t with
        | nil => exact hd1 (by rw [e]; rfl)
        | cons d t2 =>
          have : d = '/' := by simpa using h
          exact ht (by rw [this]; exact List.mem_cons_self _ _)
    have hdotdot : ¬ (c = '.' ∧ (t ++ rest).head? = some '.' ∧
        ((t ++ rest).tail = [] ∨ (t ++ rest).tail.head? = some '/')) := by
      rintro ⟨e, h1, h2⟩
      cases t with
      | nil =>
        rcases hrest with hr | hr
        · rw [hr] at h1
          cases h1
        · rw [List.nil_append, hr] at h1
          cases h1
      | cons d t2 =>
        have hd : d = '.' := by simpa using h1
        have ht2 : '/' ∉ t2 := fun m => ht (List.mem_cons_of_mem _ m)
        rcases h2 with h | h
        · have ht0 : t2 = [] := by
            have : t2 ++ rest = [] := by simpa using h
            exact (List.append_eq_nil.mp this).1
          exact hd2 (by rw [e, hd, ht0]; rfl)
        · cases t2 with
          | nil => exact hd2 (by rw [e, hd]; rfl)
          | cons x t3 =>
            have : x = '/' := by simpa using h
            exact ht2 (by rw [this]; exact List.mem_cons_self _ _)
    have htake : ((c :: t) ++ rest).takeWhile (fun x => x ≠ '/') = c :: t := by
      rw [List.takeWhile_append_of_pos hall, (takeWhile_not_slash_rest rest hrest).1,
        List.append_nil]
    have hdrop : ((c :: t) ++ rest).dropWhile (fun x => x ≠ '/') = rest := by
      rw [List.dropWhile_append_of_pos hall, (takeWhile_not_slash_rest rest hrest).2]
    show path.cleanLoop rooted (fuel + 1) (c :: (t ++ rest)) out dd = _
    rw [path.cleanLoop]
    simp only [hc, if_false, hdot, hdotdot]
    rw [← List.cons_append, htake, hdrop]

/-- A turn of the loop of `path.Clean` on a slash skips it. -/
theorem cleanLoop_slash (rooted : Bool) (fuel : Nat) (rest out : Str) (dd : Nat) :
    path.cleanLoop rooted (fuel + 1) ('/' :: rest) out dd = path.cleanLoop rooted fuel rest out dd := by
  rw [path.cleanLoop]
  simp only [if_true]

/-- The loop of `path.Clean` returns the buffer when the path is used up. -/
theorem cleanLoop_nil (rooted : Bool) (fuel : Nat) (out : Str) (dd : Nat) :
    path.cleanLoop rooted fuel [] out dd = out := by
  cases fuel <;> rfl

/-- Two ordinary segments joined by a slash are a clean path. -/
theorem Clean_two_plain_segments (a b : Str)
    (ha : a ≠ []) (hsa : '/' ∉ a) (ha1 : a ≠ ".".toList) (ha2 : a ≠ "..".toList)
    (hb : b ≠ []) (hsb : '/' ∉ b) (hb1 : b ≠ ".".toList) (hb2 : b ≠ "..".toList) :
    path.Clean (a ++ '/' :: b) = a ++ '/' :: b := by
  have hne : a ++ '/' :: b ≠ [] := by simp
  have hhead : (a ++ '/' :: b).head? ≠ some '/' := by
    cases a with
    | nil => exact absurd rfl ha
    | cons c t =>
      intro h
      have : c = '/' := by simpa using h
      exact hsa (by rw [this]; exact List.mem_cons_self _ _)
  obtain ⟨n, hn⟩ : ∃ n, (a ++ '/' :: b).length = n + 3 := by
    cases a with
    | nil => exact absurd rfl ha
    | cons c t =>
      cases b with
      | nil => exact absurd rfl hb
      | cons d u => exact ⟨t.length + u.length, by simp; omega⟩
  have hloop : path.cleanLoop false (n + 3) (a ++ '/' :: b) [] 0 = a ++ '/' :: b := by
    rw [cleanLoop_plain_segment false (n + 2) a ('/' :: b) [] 0 ha hsa ha1 ha2 (Or.inr rfl)]
    rw [cleanLoop_slash]
    have hb' := cleanLoop_plain_segment false n b [] ([] ++ a) 0 hb hsb hb1 hb2 (Or.inl rfl)
    rw [List.append_nil] at hb'
    simp only [List.length_nil, bne_self_eq_false, Bool.and_false, Bool.or_false,
      Bool.false_eq_true, if_false, Bool.not_false, Bool.true_and, Bool.false_and,
      Bool.false_or] at hb' ⊢
    rw [hb', cleanLoop_nil]
    have hapos : (a.length != 0) = true := by
      cases a with
      | nil => exact absurd rfl ha
      | cons c t => rfl
    simp only [List.nil_append, hapos, if_true, List.append_assoc, List.singleton_append]
  unfold path.Clean
  simp only [hne, if_false, hhead, decide_False, Bool.false_eq_true, hn, hloop]
  rw [if_neg (by omega)]

/-- For a non-empty first element `path.Join` cleans the two elements with a
slash between them. -/
theorem Join_pair (a b : Str) (ha : a ≠ []) :
    path.Join [a, b] = path.Clean (a ++ '/' :: b) := by
  have hpos : 0 < a.length := List.length_pos.mpr ha
  have hsize : ¬ (List.map List.length [a, b]).sum = 0 := by
    simp only [List.map_cons, List.map_nil, List.sum_cons, List.sum_nil]
    omega
  unfold path.Join
  rw [if_neg hsize]
  have hbuf : path.joinBuf [] [a, b] = a ++ '/' :: b := by
    simp only [path.joinBuf, List.length_nil, lt_self_iff_false, ne_eq, ha, not_false_eq_true,
      or_true, if_true, if_false, List.nil_append, hpos, true_or, List.append_assoc,
      List.singleton_append]
  rw [hbuf]

end GoImportRedirector

namespace GoImportRedirector

/-! ## Lemmas for the later claims -/

/-- `ServeHTTP` reads a request only through its trimmed path, its raw query, the
host of its URL, its `Host` and its headers. -/
theorem ServeHTTP_congr (quote : Str → Str) (h : Handler) (r1 r2 : http.Request)
    (hp : trimmedPath r2 = trimmedPath r1) (hq : r2.URL.RawQuery = r1.URL.RawQuery)
    (hh : r2.URL.Host = r1.URL.Host) (hH : r2.Host = r1.Host) (hhd : r2.Header = r1.Header) :
    h.ServeHTTP quote r2 = h.ServeHTTP quote r1 := by
  have hproj : h.projectPath r2 = h.projectPath r1 := by
    unfold Handler.projectPath Handler.derivedBase Handler.requestHost
    rw [hp, hh, hH, hhd]
  have htrig : trigger r2 = trigger r1 := by
    unfold trigger url.URL.Query
    rw [hp, hq]
  unfold Handler.ServeHTTP
  rw [hproj, htrig]

/-- Trimming the slash that was added to a text without a trailing slash gives
the text back. -/
theorem TrimSuffix_append_slash (p : Str) :
    strings.TrimSuffix (p ++ ['/']) "/".toList = p := by
  unfold strings.TrimSuffix strings.HasSuffix
  have hs : List.isSuffixOf "/".toList (p ++ ['/']) = true :=
    List.isSuffixOf_iff_suffix.mpr ⟨p, rfl⟩
  rw [hs]
  simp only [if_true, List.length_append, List.length_singleton]
  have h1 : ("/".toList).length = 1 := rfl
  rw [h1, Nat.add_sub_cancel, List.take_left]

/-- A text without a trailing slash is left as it is. -/
theorem TrimSuffix_of_no_slash (p : Str) (hlast : p.getLast? ≠ some '/') :
    strings.TrimSuffix p "/".toList = p := by
  unfold strings.TrimSuffix strings.HasSuffix
  have hb : List.isSuffixOf "/".toList p = false := by
    rw [Bool.eq_false_iff]
    intro hc
    obtain ⟨t, ht⟩ := List.isSuffixOf_iff_suffix.mp hc
    apply hlast
    rw [← ht]
    simp
  rw [hb]
  rfl

end GoImportRedirector
namespace GoImportRedirector

/-- A text that does not start with a slash is its own import identifier. -/
theorem TrimPrefix_of_head_ne (s : Str) (hrel : s.head? ≠ some '/') :
    strings.TrimPrefix s "/".toList = s := by
  unfold strings.TrimPrefix strings.HasPrefix
  have hpre : List.isPrefixOf "/".toList s = false := by
    cases s with
    | nil => rfl
    | cons c t =>
      have hc : c ≠ '/' := fun e => hrel (by rw [e]; rfl)
      have hc' : ('/' == c) = false := beq_eq_false_iff_ne.mpr (fun e => hc e.symm)
      show List.isPrefixOf ['/'] (c :: t) = false
      simp only [List.isPrefixOf, hc', Bool.false_and]
  rw [hpre]
  rfl

/-- A rooted text loses its first slash. -/
theorem TrimPrefix_cons_slash (s : Str) : strings.TrimPrefix ('/' :: s) "/".toList = s := by
  unfold strings.TrimPrefix strings.HasPrefix
  have hpre : List.isPrefixOf "/".toList ('/' :: s) = true := by
    show List.isPrefixOf ['/'] ('/' :: s) = true
    simp [List.isPrefixOf]
  rw [hpre]
  rfl

/-- The joined project path and the import identifier of a single-segment path
`/name` whose base `b` is not empty and does not start with a slash, when `b/name`
is a clean path. -/
theorem importPath_of_base (h : Handler) (r : http.Request) (b name : Str)
    (hsplit : path.Split (trimmedPath r) = (['/'], name)) (hbase : h.derivedBase r = b)
    (hne : b ≠ []) (hrel : b.head? ≠ some '/')
    (hclean : path.Clean (b ++ '/' :: name) = b ++ '/' :: name) :
    h.projectPath r = b ++ '/' :: name ∧ h.importPath r = b ++ '/' :: name := by
  have hproj : h.projectPath r = b ++ '/' :: name := by
    unfold Handler.projectPath
    rw [hbase, hsplit, Join_pair b name hne, hclean]
  refine ⟨hproj, ?_⟩
  unfold Handler.importPath
  rw [hproj]
  apply TrimPrefix_of_head_ne
  cases b with
  | nil => exact absurd rfl hne
  | cons c t => exact hrel

end GoImportRedirector
namespace GoImportRedirector

/-! ## The first byte of a cleaned path -/

/-- Cutting a text short does not bring a slash to its front. -/
theorem head?_take_ne (l : Str) (n : Nat) (h : l.head? ≠ some '/') :
    (l.take n).head? ≠ some '/' := by
  cases l with
  | nil => simp
  | cons c t =>
    cases n with
    | zero => simp
    | succ m => simpa using h

/-- Appending to a text that is not empty keeps its first byte. -/
theorem head?_append_ne (l m : Str) (hne : l ≠ []) (h : l.head? ≠ some '/') :
    (l ++ m).head? ≠ some '/' := by
  cases l with
  | nil => exact absurd rfl hne
  | cons c t => simpa using h

/-- The element that the loop of `path.Clean` copies starts with the byte the loop
is looking at. -/
theorem head?_takeWhile_not_slash (c : Char) (t : Str) (hc : c ≠ '/') :
    ((c :: t).takeWhile (fun x => x ≠ '/')).head? = some c := by
  simp [List.takeWhile_cons, hc]

/-- The backward scan of the `..` case does not pass the index `dotdot`. -/
theorem le_backtrack (o : Str) (dd : Nat) : ∀ w, dd ≤ w → dd ≤ path.backtrack o dd w := by
  intro w
  induction w with
  | zero => intro h; simpa [path.backtrack] using h
  | succ w ih =>
    intro h
    unfold path.backtrack
    split
    · rename_i hc
      exact ih (by omega)
    · exact h

/-- On a path that is not rooted the buffer of `path.Clean` never starts with a
slash. -/
theorem cleanLoop_relative_head (fuel : Nat) :
    ∀ (rest out : Str) (dd : Nat), out.head? ≠ some '/' →
      (path.cleanLoop false fuel rest out dd).head? ≠ some '/' := by
  induction fuel with
  | zero => intro rest out dd h; exact h
  | succ fuel ih =>
    intro rest out dd h
    cases rest with
    | nil => exact h
    | cons c t =>
      rw [path.cleanLoop]
      split
      · exact ih _ _ _ h
      · split
        · exact ih _ _ _ h
        · split
          · split
            · exact ih _ _ _ (head?_take_ne _ _ h)
            · simp only [Bool.not_false, if_true]
              apply ih
              by_cases hout : out = []
              · subst hout
                simp
              · have hpos : 0 < out.length := List.length_pos.mpr hout
                simp only [hpos, if_true, List.append_assoc]
                exact head?_append_ne _ _ hout h
          · rename_i hc _ _
            apply ih
            by_cases hout : out = []
            · subst hout
              simp only [List.length_nil, bne_self_eq_false, Bool.and_false, Bool.or_false,
                Bool.false_and, Bool.false_eq_true, if_false, List.nil_append]
              rw [head?_takeWhile_not_slash c t hc]
              intro e
              exact hc (Option.some.inj e)
            · have hlen : (out.length != 0) = true := by
                cases out with
                | nil => exact absurd rfl hout
                | cons a b => rfl
              simp only [hlen, Bool.false_and, Bool.not_false, Bool.true_and, Bool.false_or,
                if_true, List.append_assoc]
              exact head?_append_ne _ _ hout h

/-- On a rooted path the buffer of `path.Clean` is a slash followed by a text that
does not start with a slash. -/
theorem cleanLoop_rooted_head (fuel : Nat) :
    ∀ (rest s : Str) (dd : Nat), s.head? ≠ some '/' → 1 ≤ dd →
      ∃ s', path.cleanLoop true fuel rest ('/' :: s) dd = '/' :: s' ∧ s'.head? ≠ some '/' := by
  induction fuel with
  | zero => intro rest s dd h _; exact ⟨s, rfl, h⟩
  | succ fuel ih =>
    intro rest s dd h hdd
    cases rest with
    | nil => exact ⟨s, rfl, h⟩
    | cons c t =>
      rw [path.cleanLoop]
      split
      · exact ih _ _ _ h hdd
      · split
        · exact ih _ _ _ h hdd
        · split
          · split
            · rename_i hlt
              have hle : dd ≤ ('/' :: s).length - 1 := by omega
              have hb := le_backtrack ('/' :: s) dd _ hle
              obtain ⟨m, hm⟩ : ∃ m, path.backtrack ('/' :: s) dd (('/' :: s).length - 1) = m + 1 :=
                ⟨path.backtrack ('/' :: s) dd (('/' :: s).length - 1) - 1, by omega⟩
              rw [hm, List.take_succ_cons]
              exact ih _ _ _ (head?_take_ne _ _ h) hdd
            · simp only [Bool.not_true, Bool.false_eq_true, if_false]
              exact ih _ _ _ h hdd
          · rename_i hc _ _
            by_cases hs : s = []
            · subst hs
              simp only [List.length_singleton, bne_self_eq_false, Bool.and_false,
                Bool.not_true, Bool.false_and, Bool.or_false, Bool.false_eq_true, if_false,
                List.singleton_append]
              apply ih _ _ _ _ hdd
              rw [head?_takeWhile_not_slash c t hc]
              intro e
              exact hc (Option.some.inj e)
            · have hlen : (('/' :: s).length != 1) = true := by
                cases s with
                | nil => exact absurd rfl hs
                | cons a b => rfl
              simp only [hlen, Bool.true_and, Bool.not_true, Bool.false_and, Bool.or_false,
                if_true, List.cons_append, List.append_assoc]
              exact ih _ _ _ (head?_append_ne _ _ hs h) hdd

/-- A cleaned path starts with at most one slash: without its leading slash it does
not start with a slash. -/
theorem TrimPrefix_Clean_head (p : Str) :
    (strings.TrimPrefix (path.Clean p) "/".toList).head? ≠ some '/' := by
  unfold path.Clean
  by_cases hp : p = []
  · simp only [hp, if_true]
    decide
  · simp only [hp, if_false]
    by_cases hr : p.head? = some '/'
    · simp only [hr, decide_True, if_true]
      obtain ⟨s', hs', hh⟩ := cleanLoop_rooted_head p.length p.tail [] 1 (by simp) (le_refl 1)
      rw [hs']
      simp only [List.length_cons, Nat.add_one_ne_zero, if_false]
      rw [TrimPrefix_cons_slash]
      exact hh
    · simp only [hr, decide_False, Bool.false_eq_true, if_false]
      have hh := cleanLoop_relative_head p.length p [] 0 (by simp)
      split
      · decide
      · rw [TrimPrefix_of_head_ne _ hh]
        exact hh

/-- The import identifier never starts with a slash. -/
theorem importPath_head (h : Handler) (r : http.Request) :
    (h.importPath r).head? ≠ some '/' := by
  have hjoin : ∀ l : List Str, (strings.TrimPrefix (path.Join l) "/".toList).head? ≠ some '/' := by
    intro l
    unfold path.Join
    dsimp only
    split_ifs
    · decide
    · exact TrimPrefix_Clean_head _
  exact hjoin _

/-- The import identifier is empty exactly when the joined project path is empty or
`/`. -/
theorem importPath_eq_nil_iff (h : Handler) (r : http.Request) :
    h.importPath r = [] ↔ h.projectPath r = [] ∨ h.projectPath r = "/".toList := by
  unfold Handler.importPath
  cases hP : h.projectPath r with
  | nil =>
    constructor
    · intro _; exact Or.inl rfl
    · intro _; rfl
  | cons c t =>
    by_cases hc : c = '/'
    · subst hc
      rw [TrimPrefix_cons_slash]
      constructor
      · intro ht; exact Or.inr (by rw [ht]; rfl)
      · rintro (h1 | h1)
        · cases h1
        · exact (List.cons.inj h1).2
    · rw [TrimPrefix_of_head_ne _ (by intro e; exact hc (Option.some.inj e))]
      constructor
      · intro h1; cases h1
      · rintro (h1 | h1)
        · cases h1
        · exact absurd (List.cons.inj h1).1 hc

end GoImportRedirector
namespace GoImportRedirector

/-! ## Paths of plain segments: parsing -/

/-- A byte that is not unreserved differs from every unreserved byte. -/
theorem ne_of_isUnreserved (c d : Char) (hc : isUnreserved c = true)
    (hd : isUnreserved d = false) : c ≠ d := by
  intro e
  rw [e, hd] at hc
  exact absurd hc (by decide)

/-- A text of unreserved bytes and slashes does not hold a byte that is neither. -/
theorem not_mem_of_pathBytes (t : Str) (d : Char)
    (hall : ∀ c ∈ t, isUnreserved c = true ∨ c = '/') (hd : isUnreserved d = false)
    (hd' : d ≠ '/') : d ∉ t := by
  intro hm
  rcases hall d hm with h | h
  · rw [hd] at h
    exact absurd h (by decide)
  · exact hd' h

/-- An unreserved byte is a printable ASCII byte. -/
theorem isUnreserved_range (c : Char) (hc : isUnreserved c = true) :
    32 ≤ c.toNat ∧ c.toNat < 127 := by
  unfold isUnreserved url.isAlnum at hc
  simp only [Bool.or_eq_true, Bool.and_eq_true, decide_eq_true_eq] at hc
  have ha : 'a'.toNat = 97 := rfl
  have hz : 'z'.toNat = 122 := rfl
  have hA : 'A'.toNat = 65 := rfl
  have hZ : 'Z'.toNat = 90 := rfl
  have h0 : '0'.toNat = 48 := rfl
  have h9 : '9'.toNat = 57 := rfl
  rw [ha, hz, hA, hZ, h0, h9] at hc
  rcases hc with ((h | h) | h) | h
  · omega
  · omega
  · omega
  · have hm : c ∈ ['-', '_', '.', '~'] := h
    simp only [List.mem_cons, List.mem_singleton, List.not_mem_nil, or_false] at hm
    rcases hm with h | h | h | h <;> rw [h] <;> decide

/-- An unreserved byte is written as it is in a path. -/
theorem shouldEscape_of_isUnreserved (c : Char) (hc : isUnreserved c = true) :
    url.shouldEscape c url.encoding.encodePath = false := by
  unfold isUnreserved at hc
  unfold url.shouldEscape
  by_cases ha : url.isAlnum c = true
  · simp only [ha, if_true]
  · have hm : c ∈ "-_.~".toList := by
      rw [Bool.or_eq_true] at hc
      rcases hc with h | h
      · exact absurd h ha
      · exact of_decide_eq_true h
    simp only [ha, Bool.false_eq_true, if_false, reduceCtorEq, or_self, false_and, hm, if_true]

/-- A slash is written as it is in a path. -/
theorem shouldEscape_slash : url.shouldEscape '/' url.encoding.encodePath = false := by
  decide

/-- A text of unreserved bytes and slashes holds no control byte. -/
theorem stringContainsCTLByte_of_pathBytes (t : Str)
    (hall : ∀ c ∈ t, isUnreserved c = true ∨ c = '/') : url.stringContainsCTLByte t = false := by
  unfold url.stringContainsCTLByte
  rw [Bool.eq_false_iff]
  intro h
  obtain ⟨b, hb, hcond⟩ := List.any_eq_true.mp h
  have hsp : ' '.toNat = 32 := rfl
  simp only [Bool.or_eq_true, decide_eq_true_eq, hsp] at hcond
  rcases hall b hb with hu | hs
  · have := isUnreserved_range b hu
    omega
  · rw [hs] at hcond
    revert hcond
    decide

/-- Cutting at a byte that does not occur leaves the text whole. -/
theorem Cut_of_not_mem (t : Str) (b : Char) (h : b ∉ t) : strings.Cut t b = (t, [], false) := by
  induction t with
  | nil => rfl
  | cons c s ih =>
    have hc : c ≠ b := fun e => h (by rw [e]; exact List.mem_cons_self _ _)
    have hs : b ∉ s := fun m => h (List.mem_cons_of_mem _ m)
    simp only [strings.Cut, hc, if_false, ih hs]

/-- The text before the first separator is part of the text. -/
theorem Cut_fst_subset (t : Str) (b : Char) : ∀ c ∈ (strings.Cut t b).1, c ∈ t := by
  induction t with
  | nil => intro c hc; exact absurd hc (List.not_mem_nil _)
  | cons a s ih =>
    intro c hc
    unfold strings.Cut at hc
    by_cases ha : a = b
    · simp only [ha, if_true] at hc
      exact absurd hc (List.not_mem_nil _)
    · simp only [ha, if_false] at hc
      rcases List.mem_cons.mp hc with h | h
      · rw [h]; exact List.mem_cons_self _ _
      · exact List.mem_cons_of_mem _ (ih c h)

/-- A byte that does not occur has no index. -/
theorem Index_singleton_of_not_mem (t : Str) (b : Char) (h : b ∉ t) :
    strings.Index t [b] = -1 := by
  induction t with
  | nil => rfl
  | cons c s ih =>
    have hc : c ≠ b := fun e => h (by rw [e]; exact List.mem_cons_self _ _)
    have hs : b ∉ s := fun m => h (List.mem_cons_of_mem _ m)
    have hbc : (b == c) = false := beq_eq_false_iff_ne.mpr (fun e => hc e.symm)
    have hpre : List.isPrefixOf [b] (c :: s) = false := by
      simp only [List.isPrefixOf, hbc, Bool.false_and]
    simp only [strings.Index, hpre, Bool.false_eq_true, if_false, ih hs]
    decide

/-- A text does not contain a byte that does not occur in it. -/
theorem Contains_singleton_of_not_mem (t : Str) (b : Char) (h : b ∉ t) :
    strings.Contains t [b] = false := by
  unfold strings.Contains
  rw [Index_singleton_of_not_mem t b h]
  decide

/-- A text without a colon has no scheme. -/
theorem getSchemeLoop_of_no_colon (raw : Str) :
    ∀ (s : Str) (i : Nat), ':' ∉ s → url.getSchemeLoop raw i s = .ok ([], raw) := by
  intro s
  induction s with
  | nil => intro i _; rfl
  | cons c s ih =>
    intro i h
    have hc : c ≠ ':' := fun e => h (by rw [e]; exact List.mem_cons_self _ _)
    have hs : ':' ∉ s := fun m => h (List.mem_cons_of_mem _ m)
    unfold url.getSchemeLoop
    split
    · exact ih _ hs
    · split
      · split
        · rfl
        · exact ih _ hs
      · simp only [hc, if_false]

/-- The check of `unescape` passes a text without `%` in a path. -/
theorem unescapeCheck_of_no_percent (fuel : Nat) :
    ∀ t : Str, '%' ∉ t → url.unescapeCheck url.encoding.encodePath fuel t = none := by
  induction fuel with
  | zero => intro t _; rfl
  | succ fuel ih =>
    intro t h
    cases t with
    | nil => rfl
    | cons c s =>
      have hc : c ≠ '%' := fun e => h (by rw [e]; exact List.mem_cons_self _ _)
      have hs : '%' ∉ s := fun m => h (List.mem_cons_of_mem _ m)
      unfold url.unescapeCheck
      simp only [hc, if_false, reduceCtorEq, or_self, false_and, ih s hs, ite_self]

/-- The copy of `unescape` is the text itself when it has no `%` and is a path. -/
theorem unescapeCopy_of_no_percent (fuel : Nat) :
    ∀ t : Str, '%' ∉ t → t.length ≤ fuel →
      url.unescapeCopy url.encoding.encodePath fuel t = t := by
  induction fuel with
  | zero =>
    intro t _ hl
    have : t = [] := List.length_eq_zero.mp (Nat.le_zero.mp hl)
    rw [this]
    rfl
  | succ fuel ih =>
    intro t h hl
    cases t with
    | nil => rfl
    | cons c s =>
      have hc : c ≠ '%' := fun e => h (by rw [e]; exact List.mem_cons_self _ _)
      have hs : '%' ∉ s := fun m => h (List.mem_cons_of_mem _ m)
      have hl' : s.length ≤ fuel := by
        simp only [List.length_cons] at hl
        omega
      unfold url.unescapeCopy
      simp only [hc, if_false, reduceCtorEq, ih s hs hl']
      by_cases hp : c = '+'
      · simp only [hp, if_true]
      · simp only [hp, if_false]

/-- A path without `%` unescapes to itself. -/
theorem unescape_of_no_percent (t : Str) (h : '%' ∉ t) :
    url.unescape t url.encoding.encodePath = .ok t := by
  unfold url.unescape
  rw [unescapeCheck_of_no_percent t.length t h, unescapeCopy_of_no_percent t.length t h (le_refl _)]

/-- A text of unreserved bytes and slashes is its own path encoding. -/
theorem escape_of_pathBytes (t : Str) (hall : ∀ c ∈ t, isUnreserved c = true ∨ c = '/') :
    url.escape t url.encoding.encodePath = t := by
  unfold url.escape
  induction t with
  | nil => rfl
  | cons c s ih =>
    have hc : url.shouldEscape c url.encoding.encodePath = false := by
      rcases hall c (List.mem_cons_self _ _) with h | h
      · exact shouldEscape_of_isUnreserved c h
      · rw [h]; exact shouldEscape_slash
    have hs := ih (fun x hx => hall x (List.mem_cons_of_mem _ hx))
    rw [List.flatMap_cons, hs]
    simp only [hc, Bool.false_eq_true, if_false, List.singleton_append]

/-- Setting a path of unreserved bytes and slashes stores it without a raw form. -/
theorem setPath_of_pathBytes (u : url.URL) (t : Str)
    (hall : ∀ c ∈ t, isUnreserved c = true ∨ c = '/') :
    u.setPath t = .ok { u with Path := t, RawPath := [] } := by
  have hpct : '%' ∉ t := not_mem_of_pathBytes t '%' hall (by decide) (by decide)
  unfold url.URL.setPath
  rw [unescape_of_no_percent t hpct]
  simp only [escape_of_pathBytes t hall, if_true]

/-- The escaped path of a URL that holds only such a path is that path. -/
theorem EscapedPath_of_pathBytes (u : url.URL) (hraw : u.RawPath = [])
    (hall : ∀ c ∈ u.Path, isUnreserved c = true ∨ c = '/') : u.EscapedPath = u.Path := by
  have hstar : u.Path ≠ "*".toList := by
    intro e
    have hm : '*' ∈ u.Path := by rw [e]; decide
    exact not_mem_of_pathBytes u.Path '*' hall (by decide) (by decide) hm
  unfold url.URL.EscapedPath
  simp only [hraw, ne_eq, not_true_eq_false, false_and, if_false, hstar,
    escape_of_pathBytes u.Path hall]

/-- `url.Parse` reads a text of unreserved bytes and slashes that does not start
with two slashes as a URL that has this path and nothing else. -/
theorem Parse_of_pathBytes (t : Str) (hall : ∀ c ∈ t, isUnreserved c = true ∨ c = '/')
    (hnn : strings.HasPrefix t "//".toList = false) : url.Parse t = .ok { Path := t } := by
  have hhash : '#' ∉ t := not_mem_of_pathBytes t '#' hall (by decide) (by decide)
  have hq : '?' ∉ t := not_mem_of_pathBytes t '?' hall (by decide) (by decide)
  have hcolon : ':' ∉ t := not_mem_of_pathBytes t ':' hall (by decide) (by decide)
  have hstar : t ≠ "*".toList := by
    intro e
    have hm : '*' ∈ t := by rw [e]; decide
    exact not_mem_of_pathBytes t '*' hall (by decide) (by decide) hm
  have hsuf : strings.HasSuffix t ['?'] = false := by
    unfold strings.HasSuffix
    rw [Bool.eq_false_iff]
    intro hc
    obtain ⟨s, hs⟩ := List.isSuffixOf_iff_suffix.mp hc
    exact hq (by rw [← hs]; simp)
  have hseg : strings.Contains (strings.Cut t '/').1 [':'] = false :=
    Contains_singleton_of_not_mem _ _ (fun hm => hcolon (Cut_fst_subset t '/' _ hm))
  have hparse : url.parse t = .ok { Path := t } := by
    unfold url.parse
    rw [stringContainsCTLByte_of_pathBytes t hall]
    simp only [Bool.false_eq_true, if_false, hstar]
    unfold url.getScheme
    rw [getSchemeLoop_of_no_colon t t 0 hcolon]
    have hlow : strings.ToLower [] = [] := rfl
    simp only [hlow, hsuf, Bool.false_and, Bool.false_eq_true, if_false, Cut_of_not_mem t '?' hq,
      ne_eq, not_true_eq_false, and_false, false_and, hseg, hnn, false_or]
    exact setPath_of_pathBytes _ t hall
  unfold url.Parse
  rw [Cut_of_not_mem t '#' hhash]
  simp only [hparse, if_true]

end GoImportRedirector
namespace GoImportRedirector

/-! ## Paths of plain segments: cleaning and joining -/

/-- What a plain segment is: not empty, unreserved bytes only, neither `.` nor `..`. -/
theorem isPlainSegment_spec (s : Str) (h : isPlainSegment s = true) :
    s ≠ [] ∧ (∀ c ∈ s, isUnreserved c = true) ∧ s ≠ ".".toList ∧ s ≠ "..".toList := by
  unfold isPlainSegment at h
  simp only [Bool.and_eq_true, Bool.not_eq_true', List.isEmpty_eq_false, List.all_eq_true,
    decide_eq_true_eq] at h
  exact ⟨h.1.1.1, h.1.1.2, h.1.2, h.2⟩

/-- A plain segment has no slash. -/
theorem not_slash_mem_of_isPlainSegment (s : Str) (h : isPlainSegment s = true) : '/' ∉ s := by
  intro hm
  have hu := (isPlainSegment_spec s h).2.1 '/' hm
  exact absurd hu (by decide)

/-- The rooted path of two lists of segments. -/
theorem rootedPath_append (A B : List Str) :
    rootedPath (A ++ B) = rootedPath A ++ rootedPath B := by
  induction A with
  | nil => rfl
  | cons a as ih =>
    show '/' :: a ++ rootedPath (as ++ B) = ('/' :: a ++ rootedPath as) ++ rootedPath B
    rw [ih]
    simp only [List.cons_append, List.append_assoc]

/-- A rooted path of segments is its slash and its tail. -/
theorem rootedPath_cons (s : Str) (ss : List Str) :
    rootedPath (s :: ss) = '/' :: (s ++ rootedPath ss) := rfl

/-- The tail of a rooted path. -/
theorem rootedPath_tail (s : Str) (ss : List Str) :
    (rootedPath (s :: ss)).tail = s ++ rootedPath ss := rfl

/-- A rooted path of plain segments is made of unreserved bytes and slashes. -/
theorem pathBytes_rootedPath (segs : List Str) (hseg : ∀ s ∈ segs, isPlainSegment s = true) :
    ∀ c ∈ rootedPath segs, isUnreserved c = true ∨ c = '/' := by
  induction segs with
  | nil => intro c hc; exact absurd hc (List.not_mem_nil _)
  | cons s ss ih =>
    intro c hc
    rw [rootedPath_cons] at hc
    rcases List.mem_cons.mp hc with h | h
    · exact Or.inr h
    · rcases List.mem_append.mp h with h | h
      · exact Or.inl ((isPlainSegment_spec s (hseg s (List.mem_cons_self _ _))).2.1 c h)
      · exact ih (fun x hx => hseg x (List.mem_cons_of_mem _ hx)) c h

/-- Every segment of a rooted path takes two bytes or more. -/
theorem rootedPath_length (segs : List Str) (hseg : ∀ s ∈ segs, isPlainSegment s = true) :
    2 * segs.length ≤ (rootedPath segs).length := by
  induction segs with
  | nil => exact Nat.le_refl _
  | cons s ss ih =>
    have hs : 0 < s.length :=
      List.length_pos.mpr (isPlainSegment_spec s (hseg s (List.mem_cons_self _ _))).1
    have := ih (fun x hx => hseg x (List.mem_cons_of_mem _ hx))
    rw [rootedPath_cons]
    simp only [List.length_cons, List.length_append]
    omega

/-- What follows a segment in a rooted path is empty or starts with a slash. -/
theorem rootedPath_append_rest (ss : List Str) (rest : Str)
    (hrest : rest = [] ∨ rest.head? = some '/') :
    rootedPath ss ++ rest = [] ∨ (rootedPath ss ++ rest).head? = some '/' := by
  cases ss with
  | nil => exact hrest
  | cons s ss => exact Or.inr rfl

/-- The loop of `path.Clean` on the segments of a rooted path, when the buffer
already holds an element: every segment is copied after a slash. -/
theorem cleanLoop_rootedPath (rooted : Bool) :
    ∀ (segs : List Str) (fuel : Nat) (rest out : Str) (dd : Nat),
      (∀ s ∈ segs, isPlainSegment s = true) → (rest = [] ∨ rest.head? = some '/') →
      ((rooted && out.length != 1) || (!rooted && out.length != 0)) = true →
      path.cleanLoop rooted (fuel + 2 * segs.length) (rootedPath segs ++ rest) out dd =
        path.cleanLoop rooted fuel rest (out ++ rootedPath segs) dd := by
  intro segs
  induction segs with
  | nil =>
    intro fuel rest out dd _ _ _
    simp only [List.length_nil, Nat.mul_zero, Nat.add_zero, rootedPath, List.nil_append,
      List.append_nil]
  | cons s ss ih =>
    intro fuel rest out dd hseg hrest hneed
    obtain ⟨hne, hu, hd1, hd2⟩ := isPlainSegment_spec s (hseg s (List.mem_cons_self _ _))
    have hsl := not_slash_mem_of_isPlainSegment s (hseg s (List.mem_cons_self _ _))
    have hss : ∀ x ∈ ss, isPlainSegment x = true := fun x hx => hseg x (List.mem_cons_of_mem _ hx)
    have hfuel : fuel + 2 * (s :: ss).length = (fuel + 2 * ss.length + 1) + 1 := by
      simp only [List.length_cons]
      omega
    have hshape : rootedPath (s :: ss) ++ rest = '/' :: (s ++ (rootedPath ss ++ rest)) := by
      rw [rootedPath_cons]
      simp only [List.cons_append, List.append_assoc]
    rw [hfuel, hshape, cleanLoop_slash,
      cleanLoop_plain_segment rooted (fuel + 2 * ss.length) s (rootedPath ss ++ rest) out dd hne hsl
        hd1 hd2 (rootedPath_append_rest ss rest hrest)]
    simp only [hneed, if_true]
    have hpos : 0 < s.length := List.length_pos.mpr hne
    have hneed1 : ((rooted && (out ++ ['/'] ++ s).length != 1) ||
        (!rooted && (out ++ ['/'] ++ s).length != 0)) = true := by
      have h1 : ((out ++ ['/'] ++ s).length != 1) = true := by
        simp only [List.length_append, List.length_singleton, bne_iff_ne, ne_eq]
        omega
      have h0 : ((out ++ ['/'] ++ s).length != 0) = true := by
        simp only [List.length_append, List.length_singleton, bne_iff_ne, ne_eq]
        omega
      rw [h1, h0]
      cases rooted <;> rfl
    rw [ih fuel rest (out ++ ['/'] ++ s) dd hss hrest hneed1, rootedPath_cons]
    simp only [List.append_assoc, List.singleton_append, List.cons_append, List.nil_append]

/-- A rooted path of plain segments is a clean path. -/
theorem Clean_rootedPath (s : Str) (ss : List Str)
    (hseg : ∀ x ∈ s :: ss, isPlainSegment x = true) :
    path.Clean (rootedPath (s :: ss)) = rootedPath (s :: ss) := by
  obtain ⟨hne, hu, hd1, hd2⟩ := isPlainSegment_spec s (hseg s (List.mem_cons_self _ _))
  have hsl := not_slash_mem_of_isPlainSegment s (hseg s (List.mem_cons_self _ _))
  have hss : ∀ x ∈ ss, isPlainSegment x = true := fun x hx => hseg x (List.mem_cons_of_mem _ hx)
  have hpos : 0 < s.length := List.length_pos.mpr hne
  have hlen := rootedPath_length ss hss
  obtain ⟨f, hf⟩ : ∃ f, (rootedPath (s :: ss)).length = (f + 2 * ss.length) + 1 := by
    refine ⟨(rootedPath (s :: ss)).length - 1 - 2 * ss.length, ?_⟩
    rw [rootedPath_cons]
    simp only [List.length_cons, List.length_append]
    omega
  have hneed : ((true && (['/'] ++ s).length != 1) || (!true && (['/'] ++ s).length != 0)) = true := by
    have h1 : ((['/'] ++ s).length != 1) = true := by
      simp only [List.length_append, List.length_singleton, bne_iff_ne, ne_eq]
      omega
    rw [h1]
    rfl
  have hloop : path.cleanLoop true ((f + 2 * ss.length) + 1) (s ++ rootedPath ss) ['/'] 1 =
      '/' :: (s ++ rootedPath ss) := by
    rw [cleanLoop_plain_segment true (f + 2 * ss.length) s (rootedPath ss) ['/'] 1 hne hsl hd1 hd2
      (by simpa using rootedPath_append_rest ss [] (Or.inl rfl))]
    simp only [List.length_singleton, bne_self_eq_false, Bool.and_false, Bool.not_true,
      Bool.false_and, Bool.or_false, Bool.false_eq_true, if_false]
    have h := cleanLoop_rootedPath true ss f [] (['/'] ++ s) 1 hss (Or.inl rfl) hneed
    rw [List.append_nil] at h
    rw [h, cleanLoop_nil]
    simp only [List.singleton_append, List.cons_append, List.nil_append]
  unfold path.Clean
  rw [if_neg (by rw [rootedPath_cons]; exact List.cons_ne_nil _ _)]
  have hhead : (rootedPath (s :: ss)).head? = some '/' := rfl
  simp only [hhead, decide_True, if_true, hf, rootedPath_tail, hloop]
  rw [if_neg (by simp)]
  rfl

/-- A relative path of plain segments is a clean path. -/
theorem Clean_rootedPath_tail (s : Str) (ss : List Str)
    (hseg : ∀ x ∈ s :: ss, isPlainSegment x = true) :
    path.Clean (rootedPath (s :: ss)).tail = (rootedPath (s :: ss)).tail := by
  obtain ⟨hne, hu, hd1, hd2⟩ := isPlainSegment_spec s (hseg s (List.mem_cons_self _ _))
  have hsl := not_slash_mem_of_isPlainSegment s (hseg s (List.mem_cons_self _ _))
  have hss : ∀ x ∈ ss, isPlainSegment x = true := fun x hx => hseg x (List.mem_cons_of_mem _ hx)
  have hpos : 0 < s.length := List.length_pos.mpr hne
  have hlen := rootedPath_length ss hss
  rw [rootedPath_tail]
  obtain ⟨f, hf⟩ : ∃ f, (s ++ rootedPath ss).length = (f + 2 * ss.length) + 1 := by
    refine ⟨(s ++ rootedPath ss).length - 1 - 2 * ss.length, ?_⟩
    simp only [List.length_append]
    omega
  have hneed : ((false && ([] ++ s).length != 1) || (!false && ([] ++ s).length != 0)) = true := by
    have h0 : (([] ++ s).length != 0) = true := by
      simp only [List.nil_append, bne_iff_ne, ne_eq]
      omega
    rw [h0]
    rfl
  have hloop : path.cleanLoop false ((f + 2 * ss.length) + 1) (s ++ rootedPath ss) [] 0 =
      s ++ rootedPath ss := by
    rw [cleanLoop_plain_segment false (f + 2 * ss.length) s (rootedPath ss) [] 0 hne hsl hd1 hd2
      (by simpa using rootedPath_append_rest ss [] (Or.inl rfl))]
    simp only [List.length_nil, bne_self_eq_false, Bool.and_false, Bool.false_and,
      Bool.or_false, Bool.false_eq_true, if_false]
    have h := cleanLoop_rootedPath false ss f [] ([] ++ s) 0 hss (Or.inl rfl) hneed
    rw [List.append_nil] at h
    rw [h, cleanLoop_nil]
    simp only [List.nil_append]
  have hnil : s ++ rootedPath ss ≠ [] := by
    intro e
    exact hne (List.append_eq_nil.mp e).1
  have hhead : (s ++ rootedPath ss).head? ≠ some '/' := by
    cases s with
    | nil => exact absurd rfl hne
    | cons c t =>
      intro e
      have hc : c = '/' := by simpa using e
      exact hsl (by rw [hc]; exact List.mem_cons_self _ _)
  unfold path.Clean
  rw [if_neg hnil]
  simp only [hhead, decide_False, Bool.false_eq_true, if_false, hf, hloop]
  rw [if_neg (by omega)]

/-- Cleaning a rooted path of plain segments, a slash and another such path gives
the rooted path of all the segments. -/
theorem Clean_rootedPath_slash_rootedPath (a : Str) (as B : List Str)
    (hA : ∀ x ∈ a :: as, isPlainSegment x = true) (hB : ∀ x ∈ B, isPlainSegment x = true) :
    path.Clean (rootedPath (a :: as) ++ '/' :: rootedPath B) = rootedPath ((a :: as) ++ B) := by
  obtain ⟨hne, hu, hd1, hd2⟩ := isPlainSegment_spec a (hA a (List.mem_cons_self _ _))
  have hsl := not_slash_mem_of_isPlainSegment a (hA a (List.mem_cons_self _ _))
  have has : ∀ x ∈ as, isPlainSegment x = true := fun x hx => hA x (List.mem_cons_of_mem _ hx)
  have hpos : 0 < a.length := List.length_pos.mpr hne
  have hlenA := rootedPath_length as has
  have hlenB := rootedPath_length B hB
  have hshape : rootedPath (a :: as) ++ '/' :: rootedPath B =
      '/' :: (a ++ (rootedPath as ++ '/' :: rootedPath B)) := by
    rw [rootedPath_cons]
    simp only [List.cons_append, List.append_assoc]
  obtain ⟨f, hf⟩ : ∃ f, (rootedPath (a :: as) ++ '/' :: rootedPath B).length =
      (((f + 2 * B.length) + 1) + 2 * as.length) + 1 := by
    refine ⟨(rootedPath (a :: as) ++ '/' :: rootedPath B).length - 2 - 2 * as.length - 2 * B.length, ?_⟩
    rw [hshape]
    simp only [List.length_cons, List.length_append]
    omega
  have hneed : ((true && (['/'] ++ a).length != 1) || (!true && (['/'] ++ a).length != 0)) = true := by
    have h1 : ((['/'] ++ a).length != 1) = true := by
      simp only [List.length_append, List.length_singleton, bne_iff_ne, ne_eq]
      omega
    rw [h1]
    rfl
  have hneed2 : ((true && (['/'] ++ a ++ rootedPath as).length != 1) ||
      (!true && (['/'] ++ a ++ rootedPath as).length != 0)) = true := by
    have h1 : ((['/'] ++ a ++ rootedPath as).length != 1) = true := by
      simp only [List.length_append, List.length_singleton, bne_iff_ne, ne_eq]
      omega
    rw [h1]
    rfl
  have hloop : path.cleanLoop true ((((f + 2 * B.length) + 1) + 2 * as.length) + 1)
      (a ++ (rootedPath as ++ '/' :: rootedPath B)) ['/'] 1 =
      '/' :: (a ++ (rootedPath as ++ rootedPath B)) := by
    rw [cleanLoop_plain_segment true _ a (rootedPath as ++ '/' :: rootedPath B) ['/'] 1 hne hsl
      hd1 hd2 (rootedPath_append_rest as ('/' :: rootedPath B) (Or.inr rfl))]
    simp only [List.length_singleton, bne_self_eq_false, Bool.and_false, Bool.not_true,
      Bool.false_and, Bool.or_false, Bool.false_eq_true, if_false]
    rw [cleanLoop_rootedPath true as ((f + 2 * B.length) + 1) ('/' :: rootedPath B) (['/'] ++ a) 1
      has (Or.inr rfl) hneed, cleanLoop_slash]
    have h := cleanLoop_rootedPath true B f [] (['/'] ++ a ++ rootedPath as) 1 hB (Or.inl rfl)
      hneed2
    rw [List.append_nil] at h
    rw [h, cleanLoop_nil]
    simp only [List.singleton_append, List.cons_append, List.append_assoc, List.nil_append]
  unfold path.Clean
  rw [if_neg (by rw [hshape]; exact List.cons_ne_nil _ _)]
  have hhead : (rootedPath (a :: as) ++ '/' :: rootedPath B).head? = some '/' := rfl
  have htail : (rootedPath (a :: as) ++ '/' :: rootedPath B).tail =
      a ++ (rootedPath as ++ '/' :: rootedPath B) := by
    rw [hshape]
    rfl
  simp only [hhead, decide_True, if_true, hf, htail, hloop]
  rw [if_neg (by simp)]
  rw [rootedPath_append, rootedPath_cons]
  simp only [List.cons_append, List.append_assoc]

/-- For an empty first element `path.Join` cleans the second. -/
theorem Join_nil_left (b : Str) (hb : b ≠ []) : path.Join [[], b] = path.Clean b := by
  have hpos : 0 < b.length := List.length_pos.mpr hb
  have hsize : ¬ (List.map List.length [[], b]).sum = 0 := by
    simp only [List.map_cons, List.map_nil, List.sum_cons, List.sum_nil, List.length_nil]
    omega
  unfold path.Join
  rw [if_neg hsize]
  have hbuf : path.joinBuf [] [[], b] = b := by
    simp only [path.joinBuf, List.length_nil, lt_self_iff_false, ne_eq, not_true_eq_false,
      or_self, if_false, hb, not_false_eq_true, or_true, if_true, List.nil_append]
  rw [hbuf]

/-- The reference that `ServeHTTP` resolves, for a prefix path of plain segments and
a joined project path of plain segments, relative or rooted: the relative path when
the prefix path is empty and the project path is relative, the rooted path of all
segments otherwise. -/
theorem Join_plain (A B : List Str) (P : Str)
    (hA : ∀ x ∈ A, isPlainSegment x = true) (hB : ∀ x ∈ B, isPlainSegment x = true)
    (hBne : B ≠ []) (hP : P = (rootedPath B).tail ∨ P = rootedPath B) :
    path.Join [rootedPath A, P] =
      if A = [] ∧ P = (rootedPath B).tail then (rootedPath B).tail else rootedPath (A ++ B) := by
  obtain ⟨b, bs, rfl⟩ : ∃ b bs, B = b :: bs := by
    cases B with
    | nil => exact absurd rfl hBne
    | cons b bs => exact ⟨b, bs, rfl⟩
  have hb := isPlainSegment_spec b (hB b (List.mem_cons_self _ _))
  have hbsl := not_slash_mem_of_isPlainSegment b (hB b (List.mem_cons_self _ _))
  have htne : (rootedPath (b :: bs)).tail ≠ [] := by
    rw [rootedPath_tail]
    intro e
    exact hb.1 (List.append_eq_nil.mp e).1
  have hrel_ne : (rootedPath (b :: bs)).tail ≠ rootedPath (b :: bs) := by
    intro e
    have := congrArg List.length e
    rw [rootedPath_cons] at this
    simp only [List.tail_cons, List.length_cons] at this
    omega
  cases A with
  | nil =>
    have hπ : rootedPath ([] : List Str) = [] := rfl
    rw [hπ]
    rcases hP with hP | hP
    · rw [hP, Join_nil_left _ htne, Clean_rootedPath_tail b bs hB]
      simp only [true_and, if_true]
    · rw [hP, Join_nil_left _ (by rw [rootedPath_cons]; exact List.cons_ne_nil _ _),
        Clean_rootedPath b bs hB]
      rw [if_neg (by
        rintro ⟨_, e⟩
        exact hrel_ne e.symm)]
      rfl
  | cons a as =>
    rw [if_neg (by
      rintro ⟨e, _⟩
      exact List.cons_ne_nil _ _ e)]
    rw [Join_pair _ _ (by rw [rootedPath_cons]; exact List.cons_ne_nil _ _)]
    rcases hP with hP | hP
    · rw [hP]
      have hshape : rootedPath (a :: as) ++ '/' :: (rootedPath (b :: bs)).tail =
          rootedPath ((a :: as) ++ (b :: bs)) := by
        rw [rootedPath_append, rootedPath_cons b bs]
        rfl
      rw [hshape]
      exact Clean_rootedPath a (as ++ b :: bs) (by
        intro x hx
        rcases List.mem_cons.mp hx with h | h
        · rw [h]; exact hA a (List.mem_cons_self _ _)
        · rcases List.mem_append.mp h with h | h
          · exact hA x (List.mem_cons_of_mem _ h)
          · exact hB x h)
    · rw [hP]
      exact Clean_rootedPath_slash_rootedPath a as (b :: bs) hA hB

end GoImportRedirector
namespace GoImportRedirector

/-! ## Paths of plain segments: resolution -/

/-- Cutting at the first separator. -/
theorem Cut_append_cons (s t : Str) (b : Char) (h : b ∉ s) :
    strings.Cut (s ++ b :: t) b = (s, t, true) := by
  induction s with
  | nil => simp only [List.nil_append, strings.Cut, if_true]
  | cons c s ih =>
    have hc : c ≠ b := fun e => h (by rw [e]; exact List.mem_cons_self _ _)
    have hs : b ∉ s := fun m => h (List.mem_cons_of_mem _ m)
    show strings.Cut (c :: (s ++ b :: t)) b = _
    simp only [strings.Cut, hc, if_false, ih hs]

/-- The loop of `resolvePath` on a relative path of plain segments: every segment
is written, after a slash except for the first one of a fresh buffer, and the last
element is a plain segment. -/
theorem resolveLoop_plain :
    ∀ (ss : List Str) (s : Str) (fuel : Nat) (dst : Str) (first : Bool),
      (∀ x ∈ s :: ss, isPlainSegment x = true) → ss.length + 1 ≤ fuel →
      ∃ e, url.resolveLoop fuel (s ++ rootedPath ss) dst first =
          ((if first then dst else dst ++ ['/']) ++ s ++ rootedPath ss, e) ∧
        e ≠ ".".toList ∧ e ≠ "..".toList := by
  intro ss
  induction ss with
  | nil =>
    intro s fuel dst first hseg hfuel
    obtain ⟨hne, hu, hd1, hd2⟩ := isPlainSegment_spec s (hseg s (List.mem_cons_self _ _))
    have hsl := not_slash_mem_of_isPlainSegment s (hseg s (List.mem_cons_self _ _))
    obtain ⟨f, rfl⟩ : ∃ f, fuel = f + 1 := ⟨fuel - 1, by omega⟩
    refine ⟨s, ?_, hd1, hd2⟩
    have hr : rootedPath ([] : List Str) = [] := rfl
    rw [hr, List.append_nil, url.resolveLoop]
    simp only [Cut_of_not_mem s '/' hsl, hd1, hd2, if_false, Bool.false_eq_true, List.append_nil]
    cases first <;> rfl
  | cons s' ss ih =>
    intro s fuel dst first hseg hfuel
    obtain ⟨hne, hu, hd1, hd2⟩ := isPlainSegment_spec s (hseg s (List.mem_cons_self _ _))
    have hsl := not_slash_mem_of_isPlainSegment s (hseg s (List.mem_cons_self _ _))
    have hss : ∀ x ∈ s' :: ss, isPlainSegment x = true :=
      fun x hx => hseg x (List.mem_cons_of_mem _ hx)
    obtain ⟨f, rfl⟩ : ∃ f, fuel = f + 1 := ⟨fuel - 1, by omega⟩
    have hf : ss.length + 1 ≤ f := by
      simp only [List.length_cons] at hfuel
      omega
    obtain ⟨e, he, he1, he2⟩ :=
      ih s' f ((if first then dst else dst ++ ['/']) ++ s) false hss hf
    refine ⟨e, ?_, he1, he2⟩
    rw [rootedPath_cons, url.resolveLoop]
    simp only [Cut_append_cons s (s' ++ rootedPath ss) '/' hsl, hd1, hd2, if_false, if_true]
    have hst : (if (!first) = true then dst ++ ['/'] else dst) =
        (if first = true then dst else dst ++ ['/']) := by
      cases first <;> rfl
    rw [hst, he]
    simp only [Bool.false_eq_true, if_false, List.append_assoc, List.singleton_append,
      List.cons_append, List.nil_append]

/-- Resolving a rooted path of plain segments gives that path, whatever the base. -/
theorem resolvePath_rootedPath (base : Str) (s : Str) (ss : List Str)
    (hseg : ∀ x ∈ s :: ss, isPlainSegment x = true) :
    url.resolvePath base (rootedPath (s :: ss)) = rootedPath (s :: ss) := by
  obtain ⟨hne, hu, hd1, hd2⟩ := isPlainSegment_spec s (hseg s (List.mem_cons_self _ _))
  have hpos : 0 < s.length := List.length_pos.mpr hne
  have hlen := rootedPath_length ss (fun x hx => hseg x (List.mem_cons_of_mem _ hx))
  have hfuel : ss.length + 1 ≤ (rootedPath (s :: ss)).length := by
    rw [rootedPath_cons]
    simp only [List.length_cons, List.length_append]
    omega
  obtain ⟨e, he, he1, he2⟩ :=
    resolveLoop_plain ss s (rootedPath (s :: ss)).length ['/'] false hseg hfuel
  have hnil : rootedPath (s :: ss) ≠ [] := by
    rw [rootedPath_cons]
    exact List.cons_ne_nil _ _
  have hhead : ¬ (rootedPath (s :: ss)).head? ≠ some '/' := fun h => h rfl
  have hloop : url.resolveLoop ((rootedPath (s :: ss)).length + 1) (rootedPath (s :: ss)) ['/']
      true = ('/' :: '/' :: (s ++ rootedPath ss), e) := by
    rw [url.resolveLoop]
    have hcut : strings.Cut (rootedPath (s :: ss)) '/' = ([], s ++ rootedPath ss, true) := by
      rw [rootedPath_cons]
      simp only [strings.Cut, if_true]
    have hn1 : ([] : Str) ≠ ".".toList := by decide
    have hn2 : ([] : Str) ≠ "..".toList := by decide
    simp only [hcut, hn1, hn2, if_false, Bool.not_true, Bool.false_eq_true, List.append_nil,
      if_true]
    rw [he]
    simp only [Bool.false_eq_true, if_false, List.singleton_append, List.cons_append,
      List.append_assoc, List.nil_append]
  unfold url.resolvePath
  simp only [hnil, if_false, hhead, hloop, he1, he2, or_self]
  have hcond : 1 < ('/' :: '/' :: (s ++ rootedPath ss)).length ∧
      ('/' :: '/' :: (s ++ rootedPath ss)).get? 1 = some '/' := ⟨by simp, rfl⟩
  rw [if_pos hcond]
  rfl

/-- Resolving a relative path of plain segments against an empty base path gives
the rooted path of the segments. -/
theorem resolvePath_rootedPath_tail (s : Str) (ss : List Str)
    (hseg : ∀ x ∈ s :: ss, isPlainSegment x = true) :
    url.resolvePath [] (rootedPath (s :: ss)).tail = rootedPath (s :: ss) := by
  obtain ⟨hne, hu, hd1, hd2⟩ := isPlainSegment_spec s (hseg s (List.mem_cons_self _ _))
  have hsl := not_slash_mem_of_isPlainSegment s (hseg s (List.mem_cons_self _ _))
  have hpos : 0 < s.length := List.length_pos.mpr hne
  have hlen := rootedPath_length ss (fun x hx => hseg x (List.mem_cons_of_mem _ hx))
  rw [rootedPath_tail]
  have hfuel : ss.length + 1 ≤ (s ++ rootedPath ss).length + 1 := by
    simp only [List.length_append]
    omega
  obtain ⟨e, he, he1, he2⟩ :=
    resolveLoop_plain ss s ((s ++ rootedPath ss).length + 1) ['/'] true hseg hfuel
  have hnil : s ++ rootedPath ss ≠ [] := fun h => hne (List.append_eq_nil.mp h).1
  have hhead : (s ++ rootedPath ss).head? ≠ some '/' := by
    cases s with
    | nil => exact absurd rfl hne
    | cons c t =>
      intro h
      have hc : c = '/' := by simpa using h
      exact hsl (by rw [hc]; exact List.mem_cons_self _ _)
  have hfull : List.take (strings.LastIndexByte [] '/' + 1).toNat ([] : Str) ++
      (s ++ rootedPath ss) = s ++ rootedPath ss := rfl
  unfold url.resolvePath
  simp only [hnil, if_false, hhead, ne_eq, not_false_eq_true, if_true, hfull, he, he1, he2,
    or_self, List.singleton_append, List.cons_append, List.nil_append, List.append_assoc]
  have hcond : ¬ (1 < ('/' :: (s ++ rootedPath ss)).length ∧
      ('/' :: (s ++ rootedPath ss)).get? 1 = some '/') := by
    rintro ⟨_, h⟩
    cases s with
    | nil => exact absurd rfl hne
    | cons c t =>
      have hc : c = '/' := by simpa using h
      exact hsl (by rw [hc]; exact List.mem_cons_self _ _)
  rw [if_neg hcond]
  rfl

/-- Resolving a reference that is only a path, made of unreserved bytes and slashes
and not empty: the result has the scheme, user and host of the base and the
resolved path. -/
theorem ResolveReference_of_path (pu : url.URL) (t resolved : Str) (hne : t ≠ [])
    (hall : ∀ c ∈ t, isUnreserved c = true ∨ c = '/')
    (hres : url.resolvePath pu.EscapedPath t = resolved)
    (hallr : ∀ c ∈ resolved, isUnreserved c = true ∨ c = '/') :
    pu.ResolveReference { Path := t } =
      { Scheme := pu.Scheme, User := pu.User, Host := pu.Host, Path := resolved } := by
  have hesc : ({ Path := t } : url.URL).EscapedPath = t :=
    EscapedPath_of_pathBytes { Path := t } rfl hall
  unfold url.URL.ResolveReference
  simp only [ne_eq, not_true_eq_false, or_self, if_false, if_true, hne, false_and, hesc, hres]
  unfold url.URL.setPathIgnoringError
  rw [setPath_of_pathBytes _ resolved hallr]

/-- The source URL of a prefix whose path is empty or made of plain segments, for a
joined project path of plain segments: the scheme, user and host of the prefix and
the rooted path of all the segments. -/
theorem Parse_Join_plain (pu : url.URL) (A B : List Str) (P : Str)
    (hπ : pu.Path = rootedPath A) (hraw : pu.RawPath = [])
    (hA : ∀ x ∈ A, isPlainSegment x = true) (hB : ∀ x ∈ B, isPlainSegment x = true)
    (hBne : B ≠ []) (hP : P = (rootedPath B).tail ∨ P = rootedPath B) :
    pu.Parse (path.Join [pu.Path, P]) =
      .ok { Scheme := pu.Scheme, User := pu.User, Host := pu.Host,
            Path := rootedPath (A ++ B) } := by
  obtain ⟨b, bs, rfl⟩ : ∃ b bs, B = b :: bs := by
    cases B with
    | nil => exact absurd rfl hBne
    | cons b bs => exact ⟨b, bs, rfl⟩
  have hAB : ∀ x ∈ A ++ b :: bs, isPlainSegment x = true := by
    intro x hx
    rcases List.mem_append.mp hx with h | h
    · exact hA x h
    · exact hB x h
  have hbytesAB := pathBytes_rootedPath (A ++ b :: bs) hAB
  have hbytesB := pathBytes_rootedPath (b :: bs) hB
  have hb := isPlainSegment_spec b (hB b (List.mem_cons_self _ _))
  have hbsl := not_slash_mem_of_isPlainSegment b (hB b (List.mem_cons_self _ _))
  rw [hπ, Join_plain A (b :: bs) P hA hB hBne hP]
  unfold url.URL.Parse
  by_cases hc : A = [] ∧ P = (rootedPath (b :: bs)).tail
  · rw [if_pos hc]
    obtain ⟨hAnil, _⟩ := hc
    subst hAnil
    have hbytesT : ∀ c ∈ (rootedPath (b :: bs)).tail, isUnreserved c = true ∨ c = '/' :=
      fun c hc => hbytesB c (List.mem_of_mem_tail hc)
    have hnn : strings.HasPrefix (rootedPath (b :: bs)).tail "//".toList = false := by
      rw [rootedPath_tail]
      unfold strings.HasPrefix
      cases b with
      | nil => exact absurd rfl hb.1
      | cons c t =>
        have hcs : c ≠ '/' := fun e => hbsl (by rw [e]; exact List.mem_cons_self _ _)
        have hc' : ('/' == c) = false := beq_eq_false_iff_ne.mpr (fun e => hcs e.symm)
        show List.isPrefixOf ['/', '/'] (c :: (t ++ rootedPath bs)) = false
        simp only [List.isPrefixOf, hc', Bool.false_and]
    rw [Parse_of_pathBytes _ hbytesT hnn]
    dsimp only
    have hbase : pu.EscapedPath = [] := by
      have hp : pu.Path = [] := hπ
      have := EscapedPath_of_pathBytes pu hraw (by rw [hp]; intro c hc; cases hc)
      rw [this, hp]
    have htne : (rootedPath (b :: bs)).tail ≠ [] := by
      rw [rootedPath_tail]
      exact fun e => hb.1 (List.append_eq_nil.mp e).1
    rw [ResolveReference_of_path pu _ (rootedPath (b :: bs)) htne hbytesT
      (by rw [hbase]; exact resolvePath_rootedPath_tail b bs hB) hbytesB]
    rfl
  · rw [if_neg hc]
    obtain ⟨x, xs, hx⟩ : ∃ x xs, A ++ b :: bs = x :: xs := by
      cases A with
      | nil => exact ⟨b, bs, rfl⟩
      | cons a as => exact ⟨a, as ++ b :: bs, rfl⟩
    rw [hx] at hAB hbytesAB ⊢
    have hxs := isPlainSegment_spec x (hAB x (List.mem_cons_self _ _))
    have hxsl := not_slash_mem_of_isPlainSegment x (hAB x (List.mem_cons_self _ _))
    have hnn : strings.HasPrefix (rootedPath (x :: xs)) "//".toList = false := by
      rw [rootedPath_cons]
      unfold strings.HasPrefix
      cases x with
      | nil => exact absurd rfl hxs.1
      | cons c t =>
        have hcs : c ≠ '/' := fun e => hxsl (by rw [e]; exact List.mem_cons_self _ _)
        have hc' : ('/' == c) = false := beq_eq_false_iff_ne.mpr (fun e => hcs e.symm)
        show List.isPrefixOf ['/', '/'] ('/' :: c :: (t ++ rootedPath xs)) = false
        simp only [List.isPrefixOf, beq_self_eq_true, Bool.true_and, hc', Bool.false_and]
    rw [Parse_of_pathBytes _ hbytesAB hnn]
    dsimp only
    rw [ResolveReference_of_path pu _ (rootedPath (x :: xs))
      (by rw [rootedPath_cons]; exact List.cons_ne_nil _ _) hbytesAB
      (resolvePath_rootedPath _ x xs hAB) hbytesAB]

/-- A rooted path of plain segments has no two slashes in a row. -/
theorem hasDoubleSlash_rootedPath (segs : List Str)
    (hseg : ∀ s ∈ segs, isPlainSegment s = true) : hasDoubleSlash (rootedPath segs) = false := by
  have key : ∀ (t : Str), '/' ∉ t → ∀ rest : Str, (rest = [] ∨ rest.head? = some '/') →
      hasDoubleSlash rest = false → t ≠ [] → hasDoubleSlash ('/' :: (t ++ rest)) = false := by
    intro t
    induction t with
    | nil => intro _ _ _ _ h; exact absurd rfl h
    | cons c t ih =>
      intro hsl rest hrest hr _
      have hc : c ≠ '/' := fun e => hsl (by rw [e]; exact List.mem_cons_self _ _)
      have ht : '/' ∉ t := fun m => hsl (List.mem_cons_of_mem _ m)
      have hcb : (c == '/') = false := beq_eq_false_iff_ne.mpr hc
      have inner : ∀ (u : Str), '/' ∉ u → hasDoubleSlash (u ++ rest) = false := by
        intro u
        induction u with
        | nil => intro _; exact hr
        | cons d u ihu =>
          intro hu
          have hd : d ≠ '/' := fun e => hu (by rw [e]; exact List.mem_cons_self _ _)
          have hu' : '/' ∉ u := fun m => hu (List.mem_cons_of_mem _ m)
          have hdb : (d == '/') = false := beq_eq_false_iff_ne.mpr hd
          show hasDoubleSlash (d :: (u ++ rest)) = false
          cases hur : u ++ rest with
          | nil => rfl
          | cons x y =>
            have := ihu hu'
            rw [hur] at this
            simp only [hasDoubleSlash, hdb, Bool.false_and, Bool.false_or, this]
      show hasDoubleSlash ('/' :: c :: (t ++ rest)) = false
      have h2 : hasDoubleSlash (c :: (t ++ rest)) = false := inner (c :: t) hsl
      simp only [hasDoubleSlash, hcb, Bool.and_false, Bool.false_or, h2]
  induction segs with
  | nil => rfl
  | cons s ss ih =>
    have hs := isPlainSegment_spec s (hseg s (List.mem_cons_self _ _))
    have hsl := not_slash_mem_of_isPlainSegment s (hseg s (List.mem_cons_self _ _))
    rw [rootedPath_cons]
    exact key s hsl (rootedPath ss) (by simpa using rootedPath_append_rest ss [] (Or.inl rfl))
      (ih (fun x hx => hseg x (List.mem_cons_of_mem _ hx))) hs.1

/-- Two slashes in a row, as a Boolean test and as a sub-text. -/
theorem hasDoubleSlash_iff (t : Str) : hasDoubleSlash t = true ↔ ['/', '/'] <:+: t := by
  induction t with
  | nil =>
    constructor
    · intro h; exact absurd h (by decide)
    · intro h
      have := List.eq_nil_of_infix_nil h
      cases this
  | cons a t ih =>
    rw [List.infix_cons_iff]
    cases t with
    | nil =>
      have hf : hasDoubleSlash [a] = false := rfl
      constructor
      · intro h
        rw [hf] at h
        exact absurd h (by decide)
      · rintro (h | h)
        · have := h.length_le
          simp at this
        · have := List.eq_nil_of_infix_nil h
          cases this
    | cons b t =>
      constructor
      · intro h
        simp only [hasDoubleSlash, Bool.or_eq_true, Bool.and_eq_true, beq_iff_eq] at h
        rcases h with ⟨ha, hb⟩ | h
        · left
          rw [ha, hb]
          exact ⟨t, rfl⟩
        · exact Or.inr (ih.mp h)
      · rintro (h | h)
        · obtain ⟨r, hr⟩ := h
          have h1 : a = '/' := by
            have := congrArg List.head? hr
            simpa using this.symm
          have h2 : b = '/' := by
            have := congrArg (fun l => l.tail.head?) hr
            simpa using this.symm
          simp only [hasDoubleSlash, h1, h2, beq_self_eq_true, Bool.and_self, Bool.true_or]
        · have := ih.mpr h
          simp only [hasDoubleSlash, this, Bool.or_true]

end GoImportRedirector
/-! ## The claims -/

namespace GoImportRedirector

set_option maxRecDepth 100000

/-- C1: a request whose query does not carry `go-get` with exactly one value equal
to `"1"` (missing, repeated, or another value) is answered with status 404 by every
handler, whatever its path, host and headers are. -/
theorem ServeHTTP_not_found_without_go_get (quote : Str → Str) (h : Handler) (r : http.Request)
    (hq : r.URL.Query.get qGoGet ≠ some ["1".toList]) :
    h.ServeHTTP quote r = some ⟨404, "404 page not found\n".toList⟩ := by
  unfold Handler.ServeHTTP
  rw [trigger_false_of_query r hq]
  rfl

/-- Witness of C1: the parameter missing, given twice, and given as `2`. -/
theorem ServeHTTP_not_found_without_go_get_witness :
    (New githubPrefix git pkgGoDevPrefix [] [] []).1.ServeHTTP strconv.quoteASCII
        { URL := { Path := "/sub".toList }, Host := "example.org".toList } =
      some ⟨404, "404 page not found\n".toList⟩ ∧
    (New githubPrefix git pkgGoDevPrefix [] [] []).1.ServeHTTP strconv.quoteASCII
        { URL := { Path := "/sub".toList, RawQuery := "go-get=1&go-get=1".toList },
          Host := "example.org".toList } =
      some ⟨404, "404 page not found\n".toList⟩ ∧
    (New githubPrefix git pkgGoDevPrefix [] [] []).1.ServeHTTP strconv.quoteASCII
        { URL := { Path := "/sub".toList, RawQuery := "go-get=2".toList },
          Host := "example.org".toList } =
      some ⟨404, "404 page not found\n".toList⟩ :=
  ⟨ServeHTTP_not_found_without_go_get _ _ _ (by decide),
   ServeHTTP_not_found_without_go_get _ _ _ (by decide),
   ServeHTTP_not_found_without_go_get _ _ _ (by decide)⟩

/-- C2, as stated, fails: for `/pkg/sub?go-get=1` with Host `example.org` the page
has no `go-import` content `example.org/pkg/sub git
https://github.com/example.org/pkg/sub`; its import identifier is `pkg/sub`. -/
theorem go_import_of_pkg_sub_counterexample :
    hasGoImport
        ((New githubPrefix git pkgGoDevPrefix [] [] []).1.ServeHTTP strconv.quoteASCII
          (goGetRequest "/pkg/sub".toList "example.org".toList []))
        "example.org/pkg/sub git https://github.com/example.org/pkg/sub".toList = false ∧
    (New githubPrefix git pkgGoDevPrefix [] [] []).1.importPath
        (goGetRequest "/pkg/sub".toList "example.org".toList []) = "pkg/sub".toList := by
  decide

/-- C2, amended: for the handler built by `New("https://github.com", "git",
"https://pkg.go.dev", ...)` and the request `/pkg/sub?go-get=1` with Host
`example.org`, the response is the success document whose `go-import` content is
`pkg/sub git https://github.com/pkg/sub` and whose `go-source` content starts with
`pkg/sub https://github.com/pkg/sub`: the Host is not used for a path of two
segments. -/
theorem go_import_of_pkg_sub (quote : Str → Str) (rd rf fh : Str) :
    (New githubPrefix git pkgGoDevPrefix rd rf fh).1.ServeHTTP quote
        (goGetRequest "/pkg/sub".toList "example.org".toList []) =
      some ⟨200, successDocument "pkg/sub".toList "git".toList
        "https://github.com/pkg/sub".toList
        (renderedSuffix "https://pkg.go.dev/pkg/sub".toList rd)
        (renderedSuffix "https://pkg.go.dev/pkg/sub".toList rf)
        "https://pkg.go.dev/pkg/sub".toList⟩ := by
  have hp : url.Parse githubPrefix =
      .ok { Scheme := "https".toList, Host := "github.com".toList } := rfl
  have hr : url.Parse pkgGoDevPrefix =
      .ok { Scheme := "https".toList, Host := "pkg.go.dev".toList } := rfl
  have hproj : ∀ h : Handler,
      h.projectPath (goGetRequest "/pkg/sub".toList "example.org".toList []) =
        "/pkg/sub".toList := by
    intro h
    have hs : path.Split (trimmedPath (goGetRequest "/pkg/sub".toList "example.org".toList [])) =
        ("/pkg/".toList, "sub".toList) := by decide
    unfold Handler.projectPath Handler.derivedBase
    rw [hs, if_neg (by decide)]
    decide
  rw [New_ok _ _ _ rd rf fh _ _ hp hr]
  have key := ServeHTTP_success quote
    { prefix_ := some { Scheme := "https".toList, Host := "github.com".toList }, vcs := git,
      redirect := some { Scheme := "https".toList, Host := "pkg.go.dev".toList },
      redirectDirSuffix := if strings.HasPrefix "https".toList "http".toList then rd else [],
      redirectFileSuffix := if strings.HasPrefix "https".toList "http".toList then rf else [],
      forwardedHeader :=
        if 0 < fh.length then http.CanonicalHeaderKey "forwardedHeader".toList else [] }
    (goGetRequest "/pkg/sub".toList "example.org".toList []) _
    { Scheme := "https".toList, Host := "github.com".toList, Path := "/pkg/sub".toList } _
    { Scheme := "https".toList, Host := "pkg.go.dev".toList, Path := "/pkg/sub".toList }
    (by decide) rfl (by rw [hproj]; rfl) rfl (by rw [hproj]; rfl)
  rw [key]
  unfold Handler.importPath
  rw [hproj]
  rfl

end GoImportRedirector

namespace GoImportRedirector

set_option maxRecDepth 100000

/-- The host that lines 102 to 111 take from a request when no forwarded-host
header is configured: `r.Host` up to its first colon. -/
theorem requestHost_of_host_port (h : Handler) (r : http.Request) (hst rest : Str)
    (hfwd : h.forwardedHeader = []) (hhdr : url.Values.get r.Header [] = none)
    (hhost : r.Host = hst ++ rest) (hrest : rest = [] ∨ ∃ port, rest = ':' :: port)
    (hne : hst ≠ []) (hcolon : ':' ∉ hst) : h.requestHost r = hst := by
  have hget : r.Header.Get h.forwardedHeader = [] := by
    rw [hfwd]
    unfold http.Header.Get
    have hk : textproto.CanonicalMIMEHeaderKey [] = [] := rfl
    rw [hk, hhdr]
  unfold Handler.requestHost
  simp only [hget, List.length_nil, lt_self_iff_false, if_false, hhost]
  rcases hrest with hr | ⟨port, hr⟩
  · rw [hr, List.append_nil]
    unfold strings.IndexRune
    rw [IndexByte_of_not_mem hst ':' hcolon]
    rfl
  · rw [hr]
    unfold strings.IndexRune
    rw [IndexByte_append_cons hst port ':' hcolon]
    have hpos : (0 : Int) < (hst.length : Int) := by
      have := List.length_pos.mpr hne
      omega
    simp only [hpos, if_true, Int.toNat_ofNat, List.take_left]

/-- C3, as stated, fails: for the path `/..` and Host `example.org:8080` the page
is rendered with the import identifier `.`, not `example.org/..`. -/
theorem import_of_dotdot_segment_counterexample :
    (New githubPrefix git pkgGoDevPrefix [] [] []).1.ServeHTTP strconv.quoteASCII
        (goGetRequest "/..".toList "example.org:8080".toList []) =
      some ⟨200, successDocument ".".toList "git".toList "https://github.com/".toList
        "<no value>".toList "<no value>".toList
        "https://pkg.go.dev/".toList⟩ ∧
    (New githubPrefix git pkgGoDevPrefix [] [] []).1.importPath
        (goGetRequest "/..".toList "example.org:8080".toList []) ≠ "example.org/..".toList := by
  decide

/-- C3, amended: for a request with `go-get=1` whose escaped path is a single
non-empty segment `/name`, whose URL has no host, with no forwarded-host header
configured and no header with an empty name, and whose Host is `h` or `h:port` with
`h` non-empty, colon-free and not starting with a slash: the derived base is `h`;
and when `h/name` is a clean path (`path.Clean` leaves it unchanged) the import
identifier is `h/name`, which the success page carries when both resolutions
succeed. -/
theorem import_of_single_segment (quote : Str → Str) (h : Handler) (r : http.Request)
    (hst rest name : Str) (pu su ru du : url.URL)
    (hq : r.URL.Query.get qGoGet = some ["1".toList])
    (hpath : r.URL.EscapedPath = '/' :: name) (hname : name ≠ []) (hslash : '/' ∉ name)
    (hurl : r.URL.Host = [])
    (hfwd : h.forwardedHeader = []) (hhdr : url.Values.get r.Header [] = none)
    (hhost : r.Host = hst ++ rest) (hrest : rest = [] ∨ ∃ port, rest = ':' :: port)
    (hne : hst ≠ []) (hcolon : ':' ∉ hst) (hrel : hst.head? ≠ some '/')
    (hclean : path.Clean (hst ++ '/' :: name) = hst ++ '/' :: name)
    (hp : h.prefix_ = some pu)
    (hs : pu.Parse (path.Join [pu.Path, hst ++ '/' :: name]) = .ok su)
    (hr : h.redirect = some ru)
    (hd : ru.Parse (path.Join [ru.Path, hst ++ '/' :: name]) = .ok du) :
    h.derivedBase r = hst ∧ h.importPath r = hst ++ '/' :: name ∧
    h.ServeHTTP quote r =
      some ⟨200, successDocument (hst ++ '/' :: name) h.vcs su.String
        (renderedSuffix du.String h.redirectDirSuffix)
        (renderedSuffix du.String h.redirectFileSuffix) du.String⟩ := by
  have htrim : trimmedPath r = '/' :: name := by
    unfold trimmedPath
    rw [hpath]
    exact TrimSuffix_single_segment name hname hslash
  have hsplit : path.Split (trimmedPath r) = (['/'], name) := by
    rw [htrim]
    exact Split_single_segment name hslash
  have hbase : h.derivedBase r = hst := by
    unfold Handler.derivedBase
    rw [hsplit]
    have hcond : (['/'] : Str).length = 0 ∨ (['/'] : Str) = "/".toList := Or.inr rfl
    simp only [hcond, if_true, hurl, List.length_nil]
    exact requestHost_of_host_port h r hst rest hfwd hhdr hhost hrest hne hcolon
  have hproj : h.projectPath r = hst ++ '/' :: name := by
    unfold Handler.projectPath
    rw [hbase, hsplit, Join_pair hst name hne, hclean]
  have himp : h.importPath r = hst ++ '/' :: name := by
    unfold Handler.importPath strings.TrimPrefix strings.HasPrefix
    rw [hproj]
    have hpre : List.isPrefixOf "/".toList (hst ++ '/' :: name) = false := by
      cases hst with
      | nil => exact absurd rfl hne
      | cons c t =>
        have hc : c ≠ '/' := fun e => hrel (by rw [e]; rfl)
        have hc' : ('/' == c) = false := beq_eq_false_iff_ne.mpr (fun e => hc e.symm)
        show List.isPrefixOf ['/'] (c :: (t ++ '/' :: name)) = false
        simp only [List.isPrefixOf, hc', Bool.false_and]
    rw [hpre]
    rfl
  refine ⟨hbase, himp, ?_⟩
  have ht : trigger r = true :=
    (trigger_true_iff r).mpr ⟨hq, by rw [htrim]; exact List.cons_ne_nil _ _⟩
  have key := ServeHTTP_success quote h r pu su ru du ht hp (by rw [hproj]; exact hs) hr
    (by rw [hproj]; exact hd)
  rw [key, himp]

/-- Witness of C3: the path `/sub` and Host `example.org:8080` give the import
identifier `example.org/sub`. -/
theorem import_of_single_segment_witness :
    (New githubPrefix git pkgGoDevPrefix [] [] []).1.derivedBase
        (goGetRequest "/sub".toList "example.org:8080".toList []) = "example.org".toList ∧
    (New githubPrefix git pkgGoDevPrefix [] [] []).1.importPath
        (goGetRequest "/sub".toList "example.org:8080".toList []) = "example.org/sub".toList ∧
    (New githubPrefix git pkgGoDevPrefix [] [] []).1.ServeHTTP strconv.quoteASCII
        (goGetRequest "/sub".toList "example.org:8080".toList []) =
      some ⟨200, successDocument "example.org/sub".toList "git".toList
        "https://github.com/example.org/sub".toList
        "<no value>".toList "<no value>".toList
        "https://pkg.go.dev/example.org/sub".toList⟩ :=
  import_of_single_segment strconv.quoteASCII
    (New githubPrefix git pkgGoDevPrefix [] [] []).1
    (goGetRequest "/sub".toList "example.org:8080".toList [])
    "example.org".toList ":8080".toList "sub".toList
    { Scheme := "https".toList, Host := "github.com".toList }
    { Scheme := "https".toList, Host := "github.com".toList, Path := "/example.org/sub".toList }
    { Scheme := "https".toList, Host := "pkg.go.dev".toList }
    { Scheme := "https".toList, Host := "pkg.go.dev".toList, Path := "/example.org/sub".toList }
    (by decide) (by decide) (by decide) (by decide) (by decide) (by decide) (by decide)
    (by decide) (Or.inr ⟨"8080".toList, rfl⟩) (by decide) (by decide) (by decide) (by decide)
    rfl rfl rfl rfl

end GoImportRedirector

namespace GoImportRedirector

set_option maxRecDepth 100000

/-- C4 at the failing input: the handler is built with the header name
`X-Forwarded-Host`, the request carries `X-Forwarded-Host: example.org` and Host
`internal:8080`; the page names `internal/sub`, so the header was not consulted. -/
theorem forwarded_host_not_consulted :
    (New githubPrefix git pkgGoDevPrefix [] [] "X-Forwarded-Host".toList).1.ServeHTTP
        strconv.quoteASCII
        (goGetRequest "/sub".toList "internal:8080".toList
          [("X-Forwarded-Host".toList, ["example.org".toList])]) =
      some ⟨200, successDocument "internal/sub".toList "git".toList
        "https://github.com/internal/sub".toList
        "<no value>".toList "<no value>".toList
        "https://pkg.go.dev/internal/sub".toList⟩ := by
  decide

/-- C5 at the failing input: `New` called with the header name `X-Forwarded-Host`
stores the canonical form of the literal text `forwardedHeader`, which is
`Forwardedheader`, and not the canonical form `X-Forwarded-Host` of the name. -/
theorem New_forwardedHeader_is_literal :
    (New githubPrefix git pkgGoDevPrefix [] [] "X-Forwarded-Host".toList).1.forwardedHeader =
      "Forwardedheader".toList ∧
    http.CanonicalHeaderKey "X-Forwarded-Host".toList = "X-Forwarded-Host".toList ∧
    (New githubPrefix git pkgGoDevPrefix [] [] []).1.forwardedHeader = [] := by
  decide

/-- The page of a handler built by `New`, for a request that meets the trigger
condition and for which both URL resolutions succeed: status 200 and the fixed HTML
document in which the `go-import` content is `<import> <vcs> <sourceURL>`, the
`go-source` content is `<import> <sourceURL><dirSuffix><fileSuffix>` and the refresh
tag and link point at `<docsURL>`; `<vcs>` is the text given to `New`, `<import>` is
the joined project path without one leading slash, and each suffix is what
`renderedSuffix` gives for the template that `New` recorded. -/
theorem ServeHTTP_New_success (quote : Str → Str)
    (pre vcs redirect rd rf fh : Str) (r : http.Request) (pu su ru du : url.URL)
    (hp : url.Parse pre = .ok pu) (hr : url.Parse redirect = .ok ru)
    (ht : trigger r = true)
    (hs : pu.Parse (path.Join [pu.Path, (New pre vcs redirect rd rf fh).1.projectPath r]) = .ok su)
    (hd : ru.Parse (path.Join [ru.Path, (New pre vcs redirect rd rf fh).1.projectPath r]) = .ok du) :
    (New pre vcs redirect rd rf fh).1.ServeHTTP quote r =
      some ⟨200, successDocument
        (strings.TrimPrefix ((New pre vcs redirect rd rf fh).1.projectPath r) "/".toList) vcs
        su.String
        (renderedSuffix du.String (New pre vcs redirect rd rf fh).1.redirectDirSuffix)
        (renderedSuffix du.String (New pre vcs redirect rd rf fh).1.redirectFileSuffix)
        du.String⟩ := by
  have hnew := New_ok pre vcs redirect rd rf fh pu ru hp hr
  have h1 : (New pre vcs redirect rd rf fh).1.prefix_ = some pu := by rw [hnew]
  have h2 : (New pre vcs redirect rd rf fh).1.redirect = some ru := by rw [hnew]
  have h3 : (New pre vcs redirect rd rf fh).1.vcs = vcs := by rw [hnew]
  have key := ServeHTTP_success quote (New pre vcs redirect rd rf fh).1 r pu su ru du ht h1 hs h2 hd
  rw [key, h3]
  rfl

/-- C6 at the failing input: the handler built by `New` from the default prefixes
`https://github.com` and `https://pkg.go.dev` with no suffix template, and the
request `/sub?go-get=1` with Host `example.org`.  Lines 134 to 139 give the map no
entry `redirectDir` or `redirectFile`, and the template prints `<no value>` for each:
the `go-source` content of the page is
`example.org/sub https://github.com/example.org/sub<no value><no value>` and not
`example.org/sub https://github.com/example.org/sub`.  The rest of the page is as
the claim says. -/
theorem unconfigured_suffix_prints_no_value :
    (New githubPrefix git pkgGoDevPrefix [] [] []).1.ServeHTTP strconv.quoteASCII
        (goGetRequest "/sub".toList "example.org".toList []) =
      some ⟨200, successDocument "example.org/sub".toList "git".toList
        "https://github.com/example.org/sub".toList
        "<no value>".toList "<no value>".toList
        "https://pkg.go.dev/example.org/sub".toList⟩ ∧
    hasGoSource
        ((New githubPrefix git pkgGoDevPrefix [] [] []).1.ServeHTTP strconv.quoteASCII
          (goGetRequest "/sub".toList "example.org".toList []))
        "example.org/sub https://github.com/example.org/sub<no value><no value>".toList = true ∧
    hasGoSource
        ((New githubPrefix git pkgGoDevPrefix [] [] []).1.ServeHTTP strconv.quoteASCII
          (goGetRequest "/sub".toList "example.org".toList []))
        "example.org/sub https://github.com/example.org/sub".toList = false ∧
    (∀ baseRedirect : Str, renderedSuffix baseRedirect [] = "<no value>".toList) := by
  refine ⟨by decide, by decide, by decide, fun _ => rfl⟩

/-- C7, as stated, fails: the documentation prefix `httpx://docs.example` has the
scheme `httpx`, which is neither `http` nor `https`, and `New` still records both
suffix templates, which the page then renders. -/
theorem suffixes_kept_for_httpx_counterexample :
    (New githubPrefix git "httpx://docs.example".toList "/tree".toList "/blob".toList
        []).1.redirect.map (fun u => u.Scheme) = some "httpx".toList ∧
    (New githubPrefix git "httpx://docs.example".toList "/tree".toList "/blob".toList
        []).1.redirectDirSuffix = "/tree".toList ∧
    (New githubPrefix git "httpx://docs.example".toList "/tree".toList "/blob".toList
        []).1.redirectFileSuffix = "/blob".toList ∧
    (New githubPrefix git "httpx://docs.example".toList "/tree".toList "/blob".toList
        []).1.ServeHTTP strconv.quoteASCII (goGetRequest "/sub".toList "example.org".toList []) =
      some ⟨200, successDocument "example.org/sub".toList "git".toList
        "https://github.com/example.org/sub".toList
        " httpx:/docs.example/example.org/sub/tree".toList
        " httpx:/docs.example/example.org/sub/blob".toList
        "httpx://docs.example/example.org/sub".toList⟩ := by
  decide

/-- C7, amended: when the documentation prefix parses to a URL whose scheme does
not begin with `http`, then for every pair of suffix templates the handler built by
`New` has empty `redirectDirSuffix` and `redirectFileSuffix`; every response with
status 200 is `tmpl` executed on a map that has the entries `import`, `vcs`,
`sources` and `redirect` only, with no entry `redirectDir` or `redirectFile`; and
every response is the one of the handler built with empty suffix templates. -/
theorem suffixes_dropped_without_http_scheme (quote : Str → Str)
    (pre vcs redirect rd rf fh : Str) (pu ru : url.URL)
    (hp : url.Parse pre = .ok pu) (hr : url.Parse redirect = .ok ru)
    (hscheme : strings.HasPrefix ru.Scheme "http".toList = false) :
    (New pre vcs redirect rd rf fh).1.redirectDirSuffix = [] ∧
    (New pre vcs redirect rd rf fh).1.redirectFileSuffix = [] ∧
    (∀ (r : http.Request) (resp : http.Response),
      (New pre vcs redirect rd rf fh).1.ServeHTTP quote r = some resp → resp.status = 200 →
      ∃ sourceURL docsURL,
        resp.body =
          template.Execute tmpl
            [(pImport, (New pre vcs redirect rd rf fh).1.importPath r), (pVcs, vcs),
             (pSources, sourceURL), (pRedirect, docsURL)]) ∧
    ∀ r : http.Request,
      (New pre vcs redirect rd rf fh).1.ServeHTTP quote r =
        (New pre vcs redirect [] [] fh).1.ServeHTTP quote r := by
  have hnew := New_ok pre vcs redirect rd rf fh pu ru hp hr
  have hnil := New_ok pre vcs redirect [] [] fh pu ru hp hr
  have hdir : (New pre vcs redirect rd rf fh).1.redirectDirSuffix = [] := by
    rw [hnew]
    simp only [hscheme, Bool.false_eq_true, if_false]
  have hfile : (New pre vcs redirect rd rf fh).1.redirectFileSuffix = [] := by
    rw [hnew]
    simp only [hscheme, Bool.false_eq_true, if_false]
  have hvcs : (New pre vcs redirect rd rf fh).1.vcs = vcs := by rw [hnew]
  have hsame : (New pre vcs redirect rd rf fh).1 = (New pre vcs redirect [] [] fh).1 := by
    rw [hnew, hnil]
    simp only [hscheme, Bool.false_eq_true, if_false, ite_self]
  refine ⟨hdir, hfile, ?_, fun r => by rw [hsame]⟩
  intro r resp hresp hst
  obtain ⟨pu1, su, ru1, du, ht, h1, hs, h2, hd⟩ :=
    ServeHTTP_status_ok quote _ r resp hresp hst
  have key := ServeHTTP_success quote _ r pu1 su ru1 du ht h1 hs h2 hd
  rw [key] at hresp
  refine ⟨su.String, du.String, ?_⟩
  cases Option.some.inj hresp
  rw [hdir, hfile, hvcs, Execute_tmpl_without_suffixes]

/-- Witness of C7: the documentation prefix `ftp://docs.example` with the default
suffix templates of `main`; the page of the request `/sub?go-get=1` with Host
`example.org` is the one of the handler built without suffix templates. -/
theorem suffixes_dropped_without_http_scheme_witness :
    strings.HasPrefix "ftp".toList "http".toList = false ∧
    (New githubPrefix git "ftp://docs.example".toList "/tree/master{/dir}".toList
        "/blob/master{/dir}/{file}#L{line}".toList []).1.redirectDirSuffix = [] ∧
    (New githubPrefix git "ftp://docs.example".toList "/tree/master{/dir}".toList
        "/blob/master{/dir}/{file}#L{line}".toList []).1.redirectFileSuffix = [] ∧
    (New githubPrefix git "ftp://docs.example".toList "/tree/master{/dir}".toList
        "/blob/master{/dir}/{file}#L{line}".toList []).1.ServeHTTP strconv.quoteASCII
        (goGetRequest "/sub".toList "example.org".toList []) =
      (New githubPrefix git "ftp://docs.example".toList [] [] []).1.ServeHTTP
        strconv.quoteASCII (goGetRequest "/sub".toList "example.org".toList []) ∧
    (New githubPrefix git "ftp://docs.example".toList "/tree/master{/dir}".toList
        "/blob/master{/dir}/{file}#L{line}".toList []).1.ServeHTTP strconv.quoteASCII
        (goGetRequest "/sub".toList "example.org".toList []) =
      some ⟨200, template.Execute tmpl
        [(pImport, "example.org/sub".toList), (pVcs, "git".toList),
         (pSources, "https://github.com/example.org/sub".toList),
         (pRedirect, "ftp://docs.example/example.org/sub".toList)]⟩ ∧
    (New githubPrefix git "ftp://docs.example".toList "/tree/master{/dir}".toList
        "/blob/master{/dir}/{file}#L{line}".toList []).1.ServeHTTP strconv.quoteASCII
        (goGetRequest "/sub".toList "example.org".toList []) =
      some ⟨200, successDocument "example.org/sub".toList "git".toList
        "https://github.com/example.org/sub".toList
        "<no value>".toList "<no value>".toList
        "ftp://docs.example/example.org/sub".toList⟩ :=
  have h := suffixes_dropped_without_http_scheme strconv.quoteASCII githubPrefix git
    "ftp://docs.example".toList "/tree/master{/dir}".toList
    "/blob/master{/dir}/{file}#L{line}".toList []
    { Scheme := "https".toList, Host := "github.com".toList }
    { Scheme := "ftp".toList, Host := "docs.example".toList } rfl rfl (by decide)
  ⟨by decide, h.1, h.2.1, h.2.2.2 _, by decide, by decide⟩

/-- C8: `New` returns an error exactly when the source prefix or the documentation
prefix fails to parse as a URL; the source prefix is tried first; the error is the
one of `url.Parse`, which names the text it was given; the handler returned with an
error is the zero value; and two texts that parse are accepted whatever their
schemes are. -/
theorem New_error_iff_parse_error (pre vcs redirect rd rf fh : Str) :
    ((New pre vcs redirect rd rf fh).2 ≠ none ↔
      ((∃ e, url.Parse pre = .error e) ∨ ∃ e, url.Parse redirect = .error e)) ∧
    (∀ e, url.Parse pre = .error e →
      New pre vcs redirect rd rf fh = ({}, some e) ∧ e.Op = "parse".toList ∧
        (e.URL = pre ∨ e.URL = (strings.Cut pre '#').1)) ∧
    (∀ pu e, url.Parse pre = .ok pu → url.Parse redirect = .error e →
      New pre vcs redirect rd rf fh = ({}, some e) ∧ e.Op = "parse".toList ∧
        (e.URL = redirect ∨ e.URL = (strings.Cut redirect '#').1)) ∧
    (∀ pu ru, url.Parse pre = .ok pu → url.Parse redirect = .ok ru →
      (New pre vcs redirect rd rf fh).2 = none ∧
      (New pre vcs redirect rd rf fh).1.prefix_ = some pu ∧
      (New pre vcs redirect rd rf fh).1.redirect = some ru) := by
  have hA : ∀ e, url.Parse pre = .error e → New pre vcs redirect rd rf fh = ({}, some e) := by
    intro e he
    unfold New
    simp only [he]
  have hB : ∀ pu e, url.Parse pre = .ok pu → url.Parse redirect = .error e →
      New pre vcs redirect rd rf fh = ({}, some e) := by
    intro pu e hp he
    unfold New
    simp only [hp, he]
  refine ⟨?_, ?_, ?_, ?_⟩
  · constructor
    · intro hne
      cases hp : url.Parse pre with
      | error e => exact Or.inl ⟨e, rfl⟩
      | ok pu =>
        cases hr : url.Parse redirect with
        | error e => exact Or.inr ⟨e, rfl⟩
        | ok ru =>
          rw [New_ok pre vcs redirect rd rf fh pu ru hp hr] at hne
          exact absurd rfl hne
    · rintro (⟨e, he⟩ | ⟨e, he⟩)
      · rw [hA e he]
        simp
      · cases hp : url.Parse pre with
        | error e1 =>
          rw [hA e1 hp]
          simp
        | ok pu =>
          rw [hB pu e hp he]
          simp
  · intro e he
    exact ⟨hA e he, Parse_error_reports pre e he⟩
  · intro pu e hp he
    exact ⟨hB pu e hp he, Parse_error_reports redirect e he⟩
  · intro pu ru hp hr
    rw [New_ok pre vcs redirect rd rf fh pu ru hp hr]
    exact ⟨rfl, rfl, rfl⟩

/-- C9: when a request meets the trigger condition and the resolution of the
source URL fails, or it succeeds and the resolution of the documentation URL
fails, `ServeHTTP` answers with status 400, and the body is the text of the error
followed by a newline: it is not empty and holds nothing of the success document. -/
theorem ServeHTTP_bad_request_on_resolution_error (quote : Str → Str) (h : Handler)
    (r : http.Request) (pu : url.URL) (e : url.Error)
    (ht : trigger r = true) (hp : h.prefix_ = some pu)
    (hfail : pu.Parse (path.Join [pu.Path, h.projectPath r]) = .error e ∨
      ∃ su ru, pu.Parse (path.Join [pu.Path, h.projectPath r]) = .ok su ∧
        h.redirect = some ru ∧
        ru.Parse (path.Join [ru.Path, h.projectPath r]) = .error e) :
    h.ServeHTTP quote r = some ⟨400, e.Error quote ++ ['\n']⟩ ∧ e.Error quote ≠ [] := by
  constructor
  · rcases hfail with hs | ⟨su, ru, hs, hr, hd⟩
    · unfold Handler.ServeHTTP
      simp only [ht, if_true, hp, hs]
      rfl
    · unfold Handler.ServeHTTP
      simp only [ht, if_true, hp, hs, hr, hd]
      rfl
  · unfold url.Error.Error
    intro hnil
    have hlen := congrArg List.length hnil
    simp only [List.length_append, List.length_nil] at hlen
    have h1 : (" ".toList).length = 1 := rfl
    omega

/-- Witness of C9: Host `%zz` makes the source resolution fail; with the source
prefix `https://github.com/x`, an empty Host and the path `/1a:b` the source
resolution succeeds and the documentation resolution fails. -/
theorem ServeHTTP_bad_request_on_resolution_error_witness :
    (New githubPrefix git pkgGoDevPrefix [] [] []).1.ServeHTTP strconv.quoteASCII
        (goGetRequest "/sub".toList "%zz".toList []) =
      some ⟨400, "parse \"%zz/sub\": invalid URL escape \"%zz\"\n".toList⟩ ∧
    (New "https://github.com/x".toList git pkgGoDevPrefix [] [] []).1.ServeHTTP
        strconv.quoteASCII (goGetRequest "/1a:b".toList [] []) =
      some ⟨400,
        "parse \"1a:b\": first path segment in URL cannot contain colon\n".toList⟩ :=
  ⟨(ServeHTTP_bad_request_on_resolution_error strconv.quoteASCII
      (New githubPrefix git pkgGoDevPrefix [] [] []).1
      (goGetRequest "/sub".toList "%zz".toList [])
      { Scheme := "https".toList, Host := "github.com".toList }
      ⟨"parse".toList, "%zz/sub".toList, .EscapeError "%zz".toList⟩
      (by decide) rfl (Or.inl rfl)).1.trans (by decide),
   (ServeHTTP_bad_request_on_resolution_error strconv.quoteASCII
      (New "https://github.com/x".toList git pkgGoDevPrefix [] [] []).1
      (goGetRequest "/1a:b".toList [] [])
      { Scheme := "https".toList, Host := "github.com".toList, Path := "/x".toList }
      ⟨"parse".toList, "1a:b".toList, .firstPathSegmentColon⟩
      (by decide) rfl
      (Or.inr ⟨{ Scheme := "https".toList, Host := "github.com".toList,
                 Path := "/x/1a:b".toList },
               { Scheme := "https".toList, Host := "pkg.go.dev".toList }, rfl, rfl, rfl⟩)).1.trans
      (by decide)⟩

/-- C10 at the failing input: documentation prefix `https://pkg.go.dev`, directory
template `/tree/master{/dir}`, request `/sub?go-get=1` with Host `example.org`.  The
rendered `dirSuffix` is ` https:/pkg.go.dev/example.org/sub/tree/master{/dir}`: the
`//` after the scheme of the documentation URL is collapsed to one slash. -/
theorem dir_suffix_collapses_scheme_slashes :
    (New githubPrefix git pkgGoDevPrefix "/tree/master{/dir}".toList [] []).1.ServeHTTP
        strconv.quoteASCII (goGetRequest "/sub".toList "example.org".toList []) =
      some ⟨200, successDocument "example.org/sub".toList "git".toList
        "https://github.com/example.org/sub".toList
        " https:/pkg.go.dev/example.org/sub/tree/master{/dir}".toList "<no value>".toList
        "https://pkg.go.dev/example.org/sub".toList⟩ ∧
    renderedSuffix "https://pkg.go.dev/example.org/sub".toList "/tree/master{/dir}".toList ≠
      " https://pkg.go.dev/example.org/sub/tree/master{/dir}".toList := by
  decide

end GoImportRedirector
namespace GoImportRedirector

set_option maxRecDepth 100000

/-- C12: a request whose escaped path is empty or `/`, so that nothing is left once
the trailing slash is trimmed, is answered with status 404 by every handler, also
when its query is exactly `go-get=1`. -/
theorem ServeHTTP_not_found_on_empty_path (quote : Str → Str) (h : Handler) (r : http.Request)
    (hp : r.URL.EscapedPath = [] ∨ r.URL.EscapedPath = "/".toList) :
    h.ServeHTTP quote r = some ⟨404, "404 page not found\n".toList⟩ := by
  have htrim : trimmedPath r = [] := by
    unfold trimmedPath
    rcases hp with hp | hp <;> rw [hp] <;> rfl
  have ht : trigger r = false := by
    rw [Bool.eq_false_iff]
    intro hc
    exact ((trigger_true_iff r).mp hc).2 htrim
  unfold Handler.ServeHTTP
  rw [ht]
  rfl

/-- Witness of C12: the paths `/` and the empty path with the query `go-get=1`. -/
theorem ServeHTTP_not_found_on_empty_path_witness :
    (goGetRequest "/".toList "example.org".toList []).URL.Query.get qGoGet = some ["1".toList] ∧
    (New githubPrefix git pkgGoDevPrefix [] [] []).1.ServeHTTP strconv.quoteASCII
        (goGetRequest "/".toList "example.org".toList []) =
      some ⟨404, "404 page not found\n".toList⟩ ∧
    (New githubPrefix git pkgGoDevPrefix [] [] []).1.ServeHTTP strconv.quoteASCII
        (goGetRequest [] "example.org".toList []) =
      some ⟨404, "404 page not found\n".toList⟩ :=
  ⟨by decide, ServeHTTP_not_found_on_empty_path _ _ _ (Or.inr (by decide)),
   ServeHTTP_not_found_on_empty_path _ _ _ (Or.inl (by decide))⟩

/-- C14, as stated, fails: the documentation prefix `http+unix://docs` has the scheme
`http+unix`, which is neither `http` nor `https`, and `New` records both suffix
templates. -/
theorem suffixes_kept_for_http_unix_counterexample :
    (New githubPrefix git "http+unix://docs".toList "/tree".toList "/blob".toList
        []).1.redirect.map (fun u => u.Scheme) = some "http+unix".toList ∧
    (New githubPrefix git "http+unix://docs".toList "/tree".toList "/blob".toList
        []).1.redirectDirSuffix = "/tree".toList ∧
    (New githubPrefix git "http+unix://docs".toList "/tree".toList "/blob".toList
        []).1.redirectFileSuffix = "/blob".toList := by
  decide

/-- C14, amended: `New` records the directory and file suffix templates exactly when
the scheme of the documentation prefix begins with `http`: when the parsed scheme
does not begin with `http` both recorded templates are empty, and when it does, as
for `http` and `https`, they equal the supplied templates. -/
theorem New_records_suffixes_iff_scheme_begins_http (pre vcs redirect rd rf fh : Str)
    (pu ru : url.URL) (hp : url.Parse pre = .ok pu) (hr : url.Parse redirect = .ok ru) :
    (strings.HasPrefix ru.Scheme "http".toList = false →
      (New pre vcs redirect rd rf fh).1.redirectDirSuffix = [] ∧
      (New pre vcs redirect rd rf fh).1.redirectFileSuffix = []) ∧
    (strings.HasPrefix ru.Scheme "http".toList = true →
      (New pre vcs redirect rd rf fh).1.redirectDirSuffix = rd ∧
      (New pre vcs redirect rd rf fh).1.redirectFileSuffix = rf) ∧
    (ru.Scheme = "http".toList ∨ ru.Scheme = "https".toList →
      (New pre vcs redirect rd rf fh).1.redirectDirSuffix = rd ∧
      (New pre vcs redirect rd rf fh).1.redirectFileSuffix = rf) := by
  have hnew := New_ok pre vcs redirect rd rf fh pu ru hp hr
  have hpos : strings.HasPrefix ru.Scheme "http".toList = true →
      (New pre vcs redirect rd rf fh).1.redirectDirSuffix = rd ∧
      (New pre vcs redirect rd rf fh).1.redirectFileSuffix = rf := by
    intro hs
    rw [hnew]
    simp only [hs, if_true, and_self]
  refine ⟨?_, hpos, ?_⟩
  · intro hs
    rw [hnew]
    simp only [hs, Bool.false_eq_true, if_false, and_self]
  · rintro (hs | hs) <;> exact hpos (by rw [hs]; rfl)

/-- Witness of C14: `https://pkg.go.dev` keeps the templates, `ftp://docs.example`
drops them. -/
theorem New_records_suffixes_iff_scheme_begins_http_witness :
    ((New githubPrefix git pkgGoDevPrefix "/tree".toList "/blob".toList []).1.redirectDirSuffix =
        "/tree".toList ∧
      (New githubPrefix git pkgGoDevPrefix "/tree".toList "/blob".toList []).1.redirectFileSuffix =
        "/blob".toList) ∧
    ((New githubPrefix git "ftp://docs.example".toList "/tree".toList "/blob".toList
        []).1.redirectDirSuffix = [] ∧
      (New githubPrefix git "ftp://docs.example".toList "/tree".toList "/blob".toList
        []).1.redirectFileSuffix = []) :=
  ⟨(New_records_suffixes_iff_scheme_begins_http githubPrefix git pkgGoDevPrefix "/tree".toList
      "/blob".toList [] { Scheme := "https".toList, Host := "github.com".toList }
      { Scheme := "https".toList, Host := "pkg.go.dev".toList } rfl rfl).2.2 (Or.inr rfl),
   (New_records_suffixes_iff_scheme_begins_http githubPrefix git "ftp://docs.example".toList
      "/tree".toList "/blob".toList [] { Scheme := "https".toList, Host := "github.com".toList }
      { Scheme := "ftp".toList, Host := "docs.example".toList } rfl rfl).1 (by decide)⟩

end GoImportRedirector

namespace GoImportRedirector

set_option maxRecDepth 100000

/-- C15: two requests that differ only in that the escaped path of one is `p`,
non-empty and not ending in `/`, and the escaped path of the other is `p/`, get the
same response (status and body) from every handler. -/
theorem ServeHTTP_trailing_slash (quote : Str → Str) (h : Handler) (r1 r2 : http.Request)
    (p : Str) (hp1 : r1.URL.EscapedPath = p) (hp2 : r2.URL.EscapedPath = p ++ ['/'])
    (hne : p ≠ []) (hlast : p.getLast? ≠ some '/')
    (hq : r2.URL.RawQuery = r1.URL.RawQuery) (hh : r2.URL.Host = r1.URL.Host)
    (hH : r2.Host = r1.Host) (hhd : r2.Header = r1.Header) :
    h.ServeHTTP quote r2 = h.ServeHTTP quote r1 ∧ trimmedPath r1 ≠ [] := by
  have h1 : trimmedPath r1 = p := by
    unfold trimmedPath
    rw [hp1]
    exact TrimSuffix_of_no_slash p hlast
  have h2 : trimmedPath r2 = p := by
    unfold trimmedPath
    rw [hp2]
    exact TrimSuffix_append_slash p
  exact ⟨ServeHTTP_congr quote h r1 r2 (by rw [h1, h2]) hq hh hH hhd, by rw [h1]; exact hne⟩

/-- Witness of C15: `/sub` and `/sub/` with Host `example.org`. -/
theorem ServeHTTP_trailing_slash_witness :
    (New githubPrefix git pkgGoDevPrefix [] [] []).1.ServeHTTP strconv.quoteASCII
        (goGetRequest "/sub/".toList "example.org".toList []) =
      (New githubPrefix git pkgGoDevPrefix [] [] []).1.ServeHTTP strconv.quoteASCII
        (goGetRequest "/sub".toList "example.org".toList []) ∧
    (New githubPrefix git pkgGoDevPrefix [] [] []).1.ServeHTTP strconv.quoteASCII
        (goGetRequest "/sub/".toList "example.org".toList []) =
      some ⟨200, successDocument "example.org/sub".toList "git".toList
        "https://github.com/example.org/sub".toList
        "<no value>".toList "<no value>".toList
        "https://pkg.go.dev/example.org/sub".toList⟩ :=
  ⟨(ServeHTTP_trailing_slash strconv.quoteASCII _
      (goGetRequest "/sub".toList "example.org".toList [])
      (goGetRequest "/sub/".toList "example.org".toList []) "/sub".toList
      (by decide) (by decide) (by decide) (by decide) rfl rfl rfl rfl).1, by decide⟩

end GoImportRedirector
namespace GoImportRedirector

set_option maxRecDepth 100000

/-- C13, as stated, fails: for the path `/.` and the URL host `example.org` the page
is rendered with the import identifier `example.org`, not `example.org/.`. -/
theorem import_of_url_host_dot_segment_counterexample :
    (New githubPrefix git pkgGoDevPrefix [] [] []).1.ServeHTTP strconv.quoteASCII
        { URL := { Host := "example.org".toList, Path := "/.".toList,
                   RawQuery := "go-get=1".toList },
          Host := "other.example".toList } =
      some ⟨200, successDocument "example.org".toList "git".toList
        "https://github.com/example.org".toList
        "<no value>".toList "<no value>".toList
        "https://pkg.go.dev/example.org".toList⟩ ∧
    (New githubPrefix git pkgGoDevPrefix [] [] []).1.importPath
        { URL := { Host := "example.org".toList, Path := "/.".toList,
                   RawQuery := "go-get=1".toList },
          Host := "other.example".toList } ≠ "example.org/.".toList := by
  decide

/-- C13, amended: for a request with `go-get=1` whose escaped path is a single
non-empty segment `/name` and whose URL has a non-empty host, the derived base is
that host as it stands, whatever the request's `Host` and headers are; and when the
host does not start with a slash and `host/name` is a clean path (`path.Clean`
leaves it unchanged) the import identifier is `host/name`, which the success page
carries when both resolutions succeed. -/
theorem import_of_url_host (quote : Str → Str) (h : Handler) (r : http.Request)
    (host name : Str) (pu su ru du : url.URL)
    (hq : r.URL.Query.get qGoGet = some ["1".toList])
    (hpath : r.URL.EscapedPath = '/' :: name) (hname : name ≠ []) (hslash : '/' ∉ name)
    (hurl : r.URL.Host = host) (hne : host ≠ []) (hrel : host.head? ≠ some '/')
    (hclean : path.Clean (host ++ '/' :: name) = host ++ '/' :: name)
    (hp : h.prefix_ = some pu)
    (hs : pu.Parse (path.Join [pu.Path, host ++ '/' :: name]) = .ok su)
    (hr : h.redirect = some ru)
    (hd : ru.Parse (path.Join [ru.Path, host ++ '/' :: name]) = .ok du) :
    h.derivedBase r = host ∧ h.importPath r = host ++ '/' :: name ∧
    h.ServeHTTP quote r =
      some ⟨200, successDocument (host ++ '/' :: name) h.vcs su.String
        (renderedSuffix du.String h.redirectDirSuffix)
        (renderedSuffix du.String h.redirectFileSuffix) du.String⟩ := by
  have htrim : trimmedPath r = '/' :: name := by
    unfold trimmedPath
    rw [hpath]
    exact TrimSuffix_single_segment name hname hslash
  have hsplit : path.Split (trimmedPath r) = (['/'], name) := by
    rw [htrim]
    exact Split_single_segment name hslash
  have hbase : h.derivedBase r = host := by
    unfold Handler.derivedBase
    rw [hsplit]
    have hcond : (['/'] : Str).length = 0 ∨ (['/'] : Str) = "/".toList := Or.inr rfl
    have hlen : ¬ host.length = 0 := fun e => hne (List.length_eq_zero.mp e)
    simp only [hcond, if_true, hurl, hlen, if_false]
  obtain ⟨hproj, himp⟩ := importPath_of_base h r host name hsplit hbase hne hrel hclean
  refine ⟨hbase, himp, ?_⟩
  have ht : trigger r = true :=
    (trigger_true_iff r).mpr ⟨hq, by rw [htrim]; exact List.cons_ne_nil _ _⟩
  have key := ServeHTTP_success quote h r pu su ru du ht hp (by rw [hproj]; exact hs) hr
    (by rw [hproj]; exact hd)
  rw [key, himp]

/-- Witness of C13: the URL host `example.org` and the path `/sub`, with another
`Host` and a forwarded-host header on the request. -/
theorem import_of_url_host_witness :
    (New githubPrefix git pkgGoDevPrefix [] [] "X-Forwarded-Host".toList).1.derivedBase
        { URL := { Host := "example.org".toList, Path := "/sub".toList,
                   RawQuery := "go-get=1".toList },
          Host := "other.example:80".toList,
          Header := [("Forwardedheader".toList, ["forwarded.example".toList])] } =
      "example.org".toList ∧
    (New githubPrefix git pkgGoDevPrefix [] [] "X-Forwarded-Host".toList).1.importPath
        { URL := { Host := "example.org".toList, Path := "/sub".toList,
                   RawQuery := "go-get=1".toList },
          Host := "other.example:80".toList,
          Header := [("Forwardedheader".toList, ["forwarded.example".toList])] } =
      "example.org/sub".toList ∧
    (New githubPrefix git pkgGoDevPrefix [] [] "X-Forwarded-Host".toList).1.ServeHTTP
        strconv.quoteASCII
        { URL := { Host := "example.org".toList, Path := "/sub".toList,
                   RawQuery := "go-get=1".toList },
          Host := "other.example:80".toList,
          Header := [("Forwardedheader".toList, ["forwarded.example".toList])] } =
      some ⟨200, successDocument "example.org/sub".toList "git".toList
        "https://github.com/example.org/sub".toList
        "<no value>".toList "<no value>".toList
        "https://pkg.go.dev/example.org/sub".toList⟩ :=
  import_of_url_host strconv.quoteASCII
    (New githubPrefix git pkgGoDevPrefix [] [] "X-Forwarded-Host".toList).1
    { URL := { Host := "example.org".toList, Path := "/sub".toList,
               RawQuery := "go-get=1".toList },
      Host := "other.example:80".toList,
      Header := [("Forwardedheader".toList, ["forwarded.example".toList])] }
    "example.org".toList "sub".toList
    { Scheme := "https".toList, Host := "github.com".toList }
    { Scheme := "https".toList, Host := "github.com".toList, Path := "/example.org/sub".toList }
    { Scheme := "https".toList, Host := "pkg.go.dev".toList }
    { Scheme := "https".toList, Host := "pkg.go.dev".toList, Path := "/example.org/sub".toList }
    (by decide) (by decide) (by decide) (by decide) rfl (by decide) (by decide) (by decide)
    rfl rfl rfl rfl

end GoImportRedirector
namespace GoImportRedirector

set_option maxRecDepth 100000

/-- C17, as stated, fails: the path `/x/..` with Host `example.org` gets the status
200 and a page whose import identifier is empty; so does the path `//` with an
empty Host. -/
theorem empty_import_counterexample :
    (New githubPrefix git pkgGoDevPrefix [] [] []).1.ServeHTTP strconv.quoteASCII
        (goGetRequest "/x/..".toList "example.org".toList []) =
      some ⟨200, successDocument [] "git".toList "https://github.com/".toList
        "<no value>".toList "<no value>".toList
        "https://pkg.go.dev/".toList⟩ ∧
    (New githubPrefix git pkgGoDevPrefix [] [] []).1.importPath
        (goGetRequest "/x/..".toList "example.org".toList []) = [] ∧
    (New githubPrefix git pkgGoDevPrefix [] [] []).1.ServeHTTP strconv.quoteASCII
        (goGetRequest "//".toList [] []) =
      some ⟨200, successDocument [] "git".toList "https://github.com".toList
        "<no value>".toList "<no value>".toList
        "https://pkg.go.dev".toList⟩ := by
  decide

/-- C17, amended: every response with status 200 is the success document for
the import identifier of the request, and that identifier does not begin with `/`;
it is empty exactly when the joined project path is empty or `/`, and not empty
otherwise. -/
theorem import_not_rooted (quote : Str → Str) (h : Handler) (r : http.Request)
    (resp : http.Response) (hresp : h.ServeHTTP quote r = some resp)
    (hst : resp.status = 200) :
    (∃ sourceURL dirSuffix fileSuffix docsURL,
      resp.body =
        successDocument (h.importPath r) h.vcs sourceURL dirSuffix fileSuffix docsURL) ∧
    (h.importPath r).head? ≠ some '/' ∧
    (h.importPath r = [] ↔ h.projectPath r = [] ∨ h.projectPath r = "/".toList) := by
  refine ⟨?_, importPath_head h r, importPath_eq_nil_iff h r⟩
  obtain ⟨pu, su, ru, du, ht, hp, hs, hr, hd⟩ := ServeHTTP_status_ok quote h r resp hresp hst
  have key := ServeHTTP_success quote h r pu su ru du ht hp hs hr hd
  rw [key] at hresp
  cases Option.some.inj hresp
  exact ⟨_, _, _, _, rfl⟩

/-- Witness of C17: the request `/sub?go-get=1` with Host `example.org`, whose import
identifier is `example.org/sub`. -/
theorem import_not_rooted_witness :
    (New githubPrefix git pkgGoDevPrefix [] [] []).1.importPath
        (goGetRequest "/sub".toList "example.org".toList []) = "example.org/sub".toList ∧
    ((New githubPrefix git pkgGoDevPrefix [] [] []).1.importPath
        (goGetRequest "/sub".toList "example.org".toList [])).head? ≠ some '/' ∧
    ((New githubPrefix git pkgGoDevPrefix [] [] []).1.importPath
        (goGetRequest "/sub".toList "example.org".toList []) = [] ↔
      (New githubPrefix git pkgGoDevPrefix [] [] []).1.projectPath
          (goGetRequest "/sub".toList "example.org".toList []) = [] ∨
        (New githubPrefix git pkgGoDevPrefix [] [] []).1.projectPath
          (goGetRequest "/sub".toList "example.org".toList []) = "/".toList) :=
  ⟨by decide,
   (import_not_rooted strconv.quoteASCII (New githubPrefix git pkgGoDevPrefix [] [] []).1
      (goGetRequest "/sub".toList "example.org".toList [])
      ⟨200, successDocument "example.org/sub".toList "git".toList
        "https://github.com/example.org/sub".toList
        "<no value>".toList "<no value>".toList
        "https://pkg.go.dev/example.org/sub".toList⟩ (by decide) rfl).2⟩

end GoImportRedirector
namespace GoImportRedirector

set_option maxRecDepth 100000

/-- C11, as stated, fails.  With Host `..` the request `/sub?go-get=1` gets the
status 200, its joined project path is `../sub`, and the path of the source URL is
`/sub`, which does not end with the project path.  With the escaped path
`/a%2F%2Fb` and Host `h` the path of the source URL is `/h/a//b`, with a double
slash. -/
theorem sourceURL_path_counterexample :
    (New githubPrefix git pkgGoDevPrefix [] [] []).1.ServeHTTP strconv.quoteASCII
        (goGetRequest "/sub".toList "..".toList []) =
      some ⟨200, successDocument "../sub".toList "git".toList "https://github.com/sub".toList
        "<no value>".toList "<no value>".toList
        "https://pkg.go.dev/sub".toList⟩ ∧
    (New githubPrefix git pkgGoDevPrefix [] [] []).1.projectPath
        (goGetRequest "/sub".toList "..".toList []) = "../sub".toList ∧
    ((New githubPrefix git pkgGoDevPrefix [] [] []).1.sourceURL
        (goGetRequest "/sub".toList "..".toList [])).map (fun u => u.Path) =
      some "/sub".toList ∧
    ¬ ("../sub".toList <:+ "/sub".toList) ∧
    ((New githubPrefix git pkgGoDevPrefix [] [] []).1.sourceURL
        { URL := { Path := "/a//b".toList, RawPath := "/a%2F%2Fb".toList,
                   RawQuery := "go-get=1".toList },
          Host := "h".toList }).map (fun u => u.Path) = some "/h/a//b".toList ∧
    hasDoubleSlash "/h/a//b".toList = true := by
  decide

/-- The joined project path is the import identifier, with a slash in front when it
is rooted. -/
theorem projectPath_of_importPath (h : Handler) (r : http.Request) :
    h.projectPath r = h.importPath r ∨ h.projectPath r = '/' :: h.importPath r := by
  unfold Handler.importPath
  cases hP : h.projectPath r with
  | nil => exact Or.inl rfl
  | cons c t =>
    by_cases hc : c = '/'
    · subst hc
      rw [TrimPrefix_cons_slash]
      exact Or.inr rfl
    · rw [TrimPrefix_of_head_ne _ (by intro e; exact hc (Option.some.inj e))]
      exact Or.inl rfl

/-- The source URL for a prefix path and an import identifier of plain segments. -/
theorem sourceURL_of_plain (h : Handler) (r : http.Request) (pu : url.URL) (A B : List Str)
    (hπ : pu.Path = rootedPath A) (hraw : pu.RawPath = [])
    (hA : ∀ x ∈ A, isPlainSegment x = true) (hB : ∀ x ∈ B, isPlainSegment x = true)
    (hBne : B ≠ []) (himp : h.importPath r = (rootedPath B).tail) :
    pu.Parse (path.Join [pu.Path, h.projectPath r]) =
        .ok { Scheme := pu.Scheme, User := pu.User, Host := pu.Host,
              Path := rootedPath (A ++ B) } ∧
      (h.projectPath r = (rootedPath B).tail ∨ h.projectPath r = rootedPath B) := by
  obtain ⟨b, bs, rfl⟩ : ∃ b bs, B = b :: bs := by
    cases B with
    | nil => exact absurd rfl hBne
    | cons b bs => exact ⟨b, bs, rfl⟩
  have hP : h.projectPath r = (rootedPath (b :: bs)).tail ∨
      h.projectPath r = rootedPath (b :: bs) := by
    rcases projectPath_of_importPath h r with e | e
    · exact Or.inl (by rw [e, himp])
    · exact Or.inr (by rw [e, himp]; rfl)
  exact ⟨Parse_Join_plain pu A (b :: bs) _ hπ hraw hA hB hBne hP, hP⟩

/-- C11, amended: when the path of the source prefix is empty or a rooted path of
plain segments, and the import identifier of the request is made of plain segments
(not empty, of unreserved bytes, neither `.` nor `..`) separated by single slashes,
then the resolution of the source URL succeeds, and the path of the source URL is
the prefix path followed by `/` and the import identifier: it has no double slash
and ends with the joined project path. -/
theorem sourceURL_path_of_plain_segments (h : Handler) (r : http.Request) (pu : url.URL)
    (A B : List Str) (hp : h.prefix_ = some pu) (hπ : pu.Path = rootedPath A)
    (hraw : pu.RawPath = []) (hA : ∀ x ∈ A, isPlainSegment x = true)
    (hB : ∀ x ∈ B, isPlainSegment x = true) (hBne : B ≠ [])
    (himp : h.importPath r = (rootedPath B).tail) :
    h.sourceURL r =
      some { Scheme := pu.Scheme, User := pu.User, Host := pu.Host,
             Path := pu.Path ++ '/' :: h.importPath r } ∧
    hasDoubleSlash (pu.Path ++ '/' :: h.importPath r) = false ∧
    h.projectPath r <:+ pu.Path ++ '/' :: h.importPath r := by
  obtain ⟨hparse, hP⟩ := sourceURL_of_plain h r pu A B hπ hraw hA hB hBne himp
  obtain ⟨b, bs, rfl⟩ : ∃ b bs, B = b :: bs := by
    cases B with
    | nil => exact absurd rfl hBne
    | cons b bs => exact ⟨b, bs, rfl⟩
  have hpath : pu.Path ++ '/' :: h.importPath r = rootedPath (A ++ b :: bs) := by
    rw [hπ, himp, rootedPath_append]
    rfl
  have hAB : ∀ x ∈ A ++ b :: bs, isPlainSegment x = true := by
    intro x hx
    rcases List.mem_append.mp hx with h1 | h1
    · exact hA x h1
    · exact hB x h1
  refine ⟨?_, ?_, ?_⟩
  · unfold Handler.sourceURL
    rw [hp]
    dsimp only
    rw [hparse, hpath]
  · rw [hpath]
    exact hasDoubleSlash_rootedPath _ hAB
  · rw [hpath, rootedPath_append]
    rcases hP with e | e
    · rw [e]
      exact (List.tail_suffix _).trans (List.suffix_append _ _)
    · rw [e]
      exact List.suffix_append _ _

/-- Witness of C11: the default prefix with the request `/sub` for Host
`example.org`, and the prefix `https://github.com/org` with the request `/a/sub`. -/
theorem sourceURL_path_of_plain_segments_witness :
    ((New githubPrefix git pkgGoDevPrefix [] [] []).1.sourceURL
        (goGetRequest "/sub".toList "example.org".toList []) =
      some { Scheme := "https".toList, Host := "github.com".toList,
             Path := "/example.org/sub".toList } ∧
      (New githubPrefix git pkgGoDevPrefix [] [] []).1.projectPath
        (goGetRequest "/sub".toList "example.org".toList []) = "example.org/sub".toList) ∧
    ((New "https://github.com/org".toList git pkgGoDevPrefix [] [] []).1.sourceURL
        (goGetRequest "/a/sub".toList "example.org".toList []) =
      some { Scheme := "https".toList, Host := "github.com".toList,
             Path := "/org/a/sub".toList } ∧
      (New "https://github.com/org".toList git pkgGoDevPrefix [] [] []).1.projectPath
        (goGetRequest "/a/sub".toList "example.org".toList []) = "/a/sub".toList) :=
  ⟨⟨(sourceURL_path_of_plain_segments (New githubPrefix git pkgGoDevPrefix [] [] []).1
      (goGetRequest "/sub".toList "example.org".toList [])
      { Scheme := "https".toList, Host := "github.com".toList } []
      ["example.org".toList, "sub".toList] rfl rfl rfl (by decide) (by decide) (by decide)
      (by decide)).1.trans (by decide), by decide⟩,
   ⟨(sourceURL_path_of_plain_segments
      (New "https://github.com/org".toList git pkgGoDevPrefix [] [] []).1
      (goGetRequest "/a/sub".toList "example.org".toList [])
      { Scheme := "https".toList, Host := "github.com".toList, Path := "/org".toList }
      ["org".toList] ["a".toList, "sub".toList] rfl rfl rfl (by decide) (by decide) (by decide)
      (by decide)).1.trans (by decide), by decide⟩⟩

/-- C16, as stated, fails.  With an empty Host the request `/a:b?go-get=1` gets the
status 200 and the source URL `a:b`, whose scheme is `a` and whose host is empty.
With the source prefix `https://github.com/org` and Host `..` the request
`/sub?go-get=1` gets the status 200 and the source URL `https://github.com/sub`,
whose path does not begin with `/org`. -/
theorem sourceURL_leaves_prefix_counterexample :
    (New githubPrefix git pkgGoDevPrefix [] [] []).1.ServeHTTP strconv.quoteASCII
        (goGetRequest "/a:b".toList [] []) =
      some ⟨200, successDocument "a:b".toList "git".toList "a:b".toList
        "<no value>".toList "<no value>".toList
        "a:b".toList⟩ ∧
    ((New githubPrefix git pkgGoDevPrefix [] [] []).1.sourceURL
        (goGetRequest "/a:b".toList [] [])).map (fun u => (u.Scheme, u.Host, u.Opaque)) =
      some ("a".toList, [], "b".toList) ∧
    (New "https://github.com/org".toList git pkgGoDevPrefix [] [] []).1.ServeHTTP
        strconv.quoteASCII (goGetRequest "/sub".toList "..".toList []) =
      some ⟨200, successDocument "../sub".toList "git".toList "https://github.com/sub".toList
        "<no value>".toList "<no value>".toList
        "https://pkg.go.dev/sub".toList⟩ ∧
    ((New "https://github.com/org".toList git pkgGoDevPrefix [] [] []).1.sourceURL
        (goGetRequest "/sub".toList "..".toList [])).map (fun u => u.Path) =
      some "/sub".toList ∧
    ¬ ("/org".toList <+: "/sub".toList) := by
  decide

/-- C16, amended: when the path of the source prefix is empty or a rooted path of
plain segments, and the import identifier of the request is made of plain segments
separated by single slashes, the source URL stays under the prefix: it has the
scheme and the host of the prefix and its path begins with the path of the prefix;
and every response with status 200 renders that source URL. -/
theorem sourceURL_under_prefix_of_plain_segments (quote : Str → Str) (h : Handler)
    (r : http.Request) (pu : url.URL) (A B : List Str)
    (hp : h.prefix_ = some pu) (hπ : pu.Path = rootedPath A) (hraw : pu.RawPath = [])
    (hA : ∀ x ∈ A, isPlainSegment x = true) (hB : ∀ x ∈ B, isPlainSegment x = true)
    (hBne : B ≠ []) (himp : h.importPath r = (rootedPath B).tail) :
    ∃ su, h.sourceURL r = some su ∧ su.Scheme = pu.Scheme ∧ su.Host = pu.Host ∧
      pu.Path <+: su.Path ∧
      ∀ resp, h.ServeHTTP quote r = some resp → resp.status = 200 →
        ∃ dirSuffix fileSuffix docsURL,
          resp.body =
            successDocument (h.importPath r) h.vcs su.String dirSuffix fileSuffix docsURL := by
  obtain ⟨hparse, _⟩ := sourceURL_of_plain h r pu A B hπ hraw hA hB hBne himp
  refine ⟨{ Scheme := pu.Scheme, User := pu.User, Host := pu.Host,
            Path := rootedPath (A ++ B) }, ?_, rfl, rfl, ?_, ?_⟩
  · unfold Handler.sourceURL
    rw [hp]
    dsimp only
    rw [hparse]
  · show pu.Path <+: rootedPath (A ++ B)
    rw [hπ, rootedPath_append]
    exact List.prefix_append _ _
  · intro resp hresp hst
    obtain ⟨pu1, su1, ru, du, ht, hp1, hs1, hr, hd⟩ :=
      ServeHTTP_status_ok quote h r resp hresp hst
    have key := ServeHTTP_success quote h r pu1 su1 ru du ht hp1 hs1 hr hd
    have hpu : pu1 = pu := by
      rw [hp] at hp1
      exact (Option.some.inj hp1).symm
    subst hpu
    rw [hparse] at hs1
    have hsu : su1 = { Scheme := pu1.Scheme, User := pu1.User, Host := pu1.Host,
                       Path := rootedPath (A ++ B) } := by
      cases hs1
      rfl
    rw [key] at hresp
    cases Option.some.inj hresp
    rw [hsu]
    exact ⟨_, _, _, rfl⟩

/-- Witness of C16: the source prefix `https://github.com/org` and the request
`/sub?go-get=1` for Host `example.org`. -/
theorem sourceURL_under_prefix_of_plain_segments_witness :
    (New "https://github.com/org".toList git pkgGoDevPrefix [] [] []).1.ServeHTTP
        strconv.quoteASCII (goGetRequest "/sub".toList "example.org".toList []) =
      some ⟨200, successDocument "example.org/sub".toList "git".toList
        "https://github.com/org/example.org/sub".toList
        "<no value>".toList "<no value>".toList
        "https://pkg.go.dev/example.org/sub".toList⟩ ∧
    ∃ su, (New "https://github.com/org".toList git pkgGoDevPrefix [] [] []).1.sourceURL
          (goGetRequest "/sub".toList "example.org".toList []) = some su ∧
      su.Scheme = "https".toList ∧ su.Host = "github.com".toList ∧
      "/org".toList <+: su.Path :=
  ⟨by decide,
   (sourceURL_under_prefix_of_plain_segments strconv.quoteASCII
      (New "https://github.com/org".toList git pkgGoDevPrefix [] [] []).1
      (goGetRequest "/sub".toList "example.org".toList [])
      { Scheme := "https".toList, Host := "github.com".toList, Path := "/org".toList }
      ["org".toList] ["example.org".toList, "sub".toList] rfl rfl rfl (by decide) (by decide)
      (by decide) (by decide)).imp
     (fun _ hsu => ⟨hsu.1, hsu.2.1, hsu.2.2.1, hsu.2.2.2.1⟩)⟩

end GoImportRedirector
